import Mathlib

/-!
Verification of the include-preprocessing engine of `src/preprocess.js`
(asciidoctor-kroki).  The JavaScript source is shallowly embedded over
`List Char`: JS strings become `List Char`, the JS regexes are translated
into explicit scanners with the ECMAScript semantics they have on the
call sites (leftmost match, greedy/lazy quantifiers, `.` matching every
character except the line terminators LF, CR, U+2028, U+2029), thrown JS
exceptions become `Except`, and the two mutable arrays `includeOnce` /
`includeStack` are threaded as explicit state that survives errors, as
JS mutation does.  The abstract `vfs` collaborator is a structure of two
functions; `vfs.read` returning `none` models a thrown read error.
-/

/-- Characters matched by the JS `\s` class on the inputs relevant here
(the full ECMAScript class also holds exotic Unicode spaces, which the
engine never treats specially; they are omitted from the model). -/
def isJsWs (c : Char) : Bool :=
  c = ' ' ∨ c = '\t' ∨ c = '\n' ∨ c = '\r' ∨ c = '\x0b' ∨ c = '\x0c'

/-- Characters matched by the JS `.` (anything but a line terminator). -/
def dotChar (c : Char) : Bool :=
  c ≠ '\n' ∧ c ≠ '\r' ∧ c ≠ '\u2028' ∧ c ≠ '\u2029'

/-- Strip a literal prefix, returning the remainder on success. -/
def stripPfx : List Char → List Char → Option (List Char)
  | [], l => some l
  | _ :: _, [] => none
  | p :: ps, c :: cs => if p = c then stripPfx ps cs else none

/-- Split on `'\n'`, like `String.prototype.split('\n')`: always returns at
least one (possibly empty) segment, and no segment contains `'\n'`. -/
def splitOnNl : List Char → List (List Char)
  | [] => [[]]
  | c :: rest =>
    if c = '\n' then [] :: splitOnNl rest
    else
      match splitOnNl rest with
      | [] => [[c]]
      | s :: ss => (c :: s) :: ss

/-- Join segments with `'\n'`, like `Array.prototype.join('\n')`. -/
def joinNl : List (List Char) → List Char
  | [] => []
  | [s] => s
  | s :: ss => s ++ '\n' :: joinNl ss

/-- Number of apostrophes in a list of characters. -/
def countApos (l : List Char) : Nat := l.countP (fun c => c = '\'')

/-- The longest suffix consisting of `.`-matchable characters. -/
def dotSuffix (l : List Char) : List Char := (l.reverse.takeWhile dotChar).reverse

/-- One `'\n'`-separated segment under the single-line comment regex
`.*'.*'.*(\r\n|\n)` of `preprocess.js` line 87 (the segment is followed by
the `'\n'` that `split` removed).  A match requires at least two
apostrophes inside one contiguous `.`-matchable run adjacent to the line
terminator; the match covers that run plus the newline.  Returns the part
of the segment that survives and whether the trailing newline survives. -/
def stripSegment (seg : List Char) : List Char × Bool :=
  let t1 := dotSuffix seg
  if 2 ≤ countApos t1 then (seg.take (seg.length - t1.length), false)
  else if seg.getLast? = some '\r' then
    let seg' := seg.dropLast
    let t2 := dotSuffix seg'
    if 2 ≤ countApos t2 then (seg'.take (seg'.length - t2.length), false)
    else (seg, true)
  else (seg, true)

/-- Reassemble the segments, applying `stripSegment` to every segment that
is followed by a newline; the final segment is never a match because the
regex demands a trailing line terminator. -/
def stripSegs : List (List Char) → List Char
  | [] => []
  | [last] => last
  | seg :: rest =>
    let (kept, keepNl) := stripSegment seg
    kept ++ (if keepNl then '\n' :: stripSegs rest else stripSegs rest)

/-- `text.replace(regExCommentSingleLine, '')` of `preprocess.js` line 89. -/
def stripSingleLineComments (l : List Char) : List Char :=
  stripSegs (splitOnNl l)

/-- Find the first occurrence of the two-character pattern `[a, b]`,
returning the text before it and the text after it. -/
def splitFirst2 (a b : Char) : List Char → Option (List Char × List Char)
  | [] => none
  | [_] => none
  | x :: y :: rest =>
    if x = a ∧ y = b then some ([], rest)
    else
      match splitFirst2 a b (y :: rest) with
      | some (pre, post) => some (x :: pre, post)
      | none => none

/-- Fueled worker for `stripBlockComments`; each step removes one
leftmost non-greedy `/' ... '/` span and continues after it, exactly like
a global `replace` with `/\/'([\s\S]*?)'\//g`. -/
def stripBlockCommentsAux : Nat → List Char → List Char
  | 0, l => l
  | fuel + 1, l =>
    match splitFirst2 '/' '\'' l with
    | none => l
    | some (pre, rest) =>
      match splitFirst2 '\'' '/' rest with
      | none => l
      | some (_, post) => pre ++ stripBlockCommentsAux fuel post

/-- `text.replace(regExCommentMultiLine, '')` of `preprocess.js` line 86/89. -/
def stripBlockComments (l : List Char) : List Char :=
  stripBlockCommentsAux l.length l

/-- The reference token of the include grammar, capture group 2 of
`regExInclude` (`preprocess.js` line 88): `((?:(?<=\\)[ ]|[^ ])+)` — a
greedy run in which a space is accepted only when the character before it
in the input is a backslash.  `prev` is the character preceding the
current position.  Returns the run and the remainder. -/
def refRunAux (prev : Char) : List Char → List Char × List Char
  | [] => ([], [])
  | c :: rest =>
    if c ≠ ' ' ∨ prev = '\\' then
      let (run, after) := refRunAux c rest
      (c :: run, after)
    else ([], c :: rest)

/-- Greatest index `i ≥ 1` of `l` holding a character other than `' '`.
Used for the backtracking case of `\s+` when everything after the keyword
is whitespace. -/
def lastNonSpaceFrom1 (l : List Char) : Option Nat :=
  ((l.enum.filter (fun p => 1 ≤ p.1 ∧ p.2 ≠ ' ')).map (fun p => p.1)).getLast?

/-- Matches `\s+((?:(?<=\\)[ ]|[^ ])+)(.*)` against the text after the
directive keyword, with the regex backtracking behavior: the greedy `\s+`
gives characters back to the reference group only when the group would
otherwise be empty, and then only a non-space whitespace character can
begin the reference (the lookbehind sees a whitespace character, never a
backslash).  Returns `(reference, tail, leftover)` where `tail` is capture
group 3 (`.*`, halting at a non-`dotChar` character) and `leftover` is the
part of the line beyond the whole match. -/
def matchAfterKw (r : List Char) : Option (List Char × List Char × List Char) :=
  let w := r.takeWhile isJsWs
  let rest := r.drop w.length
  if w = [] then none
  else
    match rest with
    | c :: cs =>
      let (run, after) := refRunAux c cs
      let tl := after.takeWhile dotChar
      some (c :: run, tl, after.drop tl.length)
    | [] =>
      match lastNonSpaceFrom1 w with
      | none => none
      | some k =>
        let s := w.drop k
        let ref := s.takeWhile (fun c => c ≠ ' ')
        let after := s.drop ref.length
        let tl := after.takeWhile dotChar
        some (ref, tl, after.drop tl.length)

/-- Result of matching one line against `regExInclude`. -/
structure IncMatch where
  kw : List Char
  ref : List Char
  tail : List Char
  leftover : List Char
deriving DecidableEq, Repr

/-- Try one keyword suffix of the alternation
`include(?:_many|_once|url|sub)?`. -/
def tryKw (r2 : List Char) (sfx : List Char) : Option IncMatch :=
  (stripPfx sfx r2).bind fun r3 =>
    (matchAfterKw r3).map fun t =>
      ⟨'i' :: 'n' :: 'c' :: 'l' :: 'u' :: 'd' :: 'e' :: sfx, t.1, t.2.1, t.2.2⟩

/-- `regExInclude` of `preprocess.js` line 88:
`^\s*!(include(?:_many|_once|url|sub)?)\s+((?:(?<=\\)[ ]|[^ ])+)(.*)`,
applied to one line (the alternation is tried left to right, and an
alternative is kept only if the rest of the regex succeeds after it). -/
def matchInclude (line : List Char) : Option IncMatch :=
  let rest := line.dropWhile isJsWs
  match rest with
  | '!' :: r =>
    match stripPfx "include".toList r with
    | none => none
    | some r2 =>
      tryKw r2 "_many".toList <|> tryKw r2 "_once".toList <|>
      tryKw r2 "url".toList <|> tryKw r2 "sub".toList <|> tryKw r2 []
  | _ => none

/-- ASCII lowercasing, the effect of `String.prototype.toLowerCase` on the
keyword (which the regex constrains to ASCII letters and `_`). -/
def asciiLower (l : List Char) : List Char :=
  l.map fun c => if 'A' ≤ c ∧ c ≤ 'Z' then Char.ofNat (c.toNat + 32) else c

/-- `String.prototype.trim`. -/
def jsTrim (l : List Char) : List Char :=
  ((l.dropWhile isJsWs).reverse.dropWhile isJsWs).reverse

/-- `String.prototype.split('!')`. -/
def splitOnBang : List Char → List (List Char)
  | [] => [[]]
  | c :: rest =>
    if c = '!' then [] :: splitOnBang rest
    else
      match splitOnBang rest with
      | [] => [[c]]
      | s :: ss => (c :: s) :: ss

/-- `String.prototype.replace(/\\ /g, ' ')`. -/
def replEscSpace : List Char → List Char
  | '\\' :: ' ' :: rest => ' ' :: replEscSpace rest
  | c :: rest => c :: replEscSpace rest
  | [] => []

/-- One decimal digit. -/
def digitVal? (c : Char) : Option Nat :=
  if '0' ≤ c ∧ c ≤ '9' then some (c.toNat - '0'.toNat) else none

/-- Value of a leading run of decimal digits; `none` when there is none. -/
def leadDigits (l : List Char) : Option Nat :=
  let ds := l.takeWhile (fun c => (digitVal? c).isSome)
  if ds = [] then none
  else some (ds.foldl (fun acc c => acc * 10 + ((digitVal? c).getD 0)) 0)

/-- `parseInt(s, 10)`: skip leading whitespace, optional sign, then a
leading digit run; `none` models `NaN`. -/
def jsParseInt10 (s : List Char) : Option Int :=
  let t := s.dropWhile isJsWs
  match t with
  | '-' :: r => (leadDigits r).map fun n => -(n : Int)
  | '+' :: r => (leadDigits r).map fun n => (n : Int)
  | r => (leadDigits r).map fun n => (n : Int)

/-- Split on `'/'`. -/
def splitSlash : List Char → List (List Char)
  | [] => [[]]
  | c :: rest =>
    if c = '/' then [] :: splitSlash rest
    else
      match splitSlash rest with
      | [] => [[c]]
      | s :: ss => (c :: s) :: ss

/-- Path-segment normalization of Node's `path.posix`: drop empty and `.`
segments, resolve `..` against a preceding real segment (keeping leading
`..` for relative paths, dropping it at the root of absolute ones). -/
def normalizeSegs (absolute : Bool) : List (List Char) → List (List Char) → List (List Char)
  | acc, [] => acc.reverse
  | acc, s :: rest =>
    if s = [] ∨ s = ['.'] then normalizeSegs absolute acc rest
    else if s = ['.', '.'] then
      match acc with
      | [] => if absolute then normalizeSegs absolute [] rest
              else normalizeSegs absolute [['.', '.']] rest
      | t :: acc' =>
        if t = ['.', '.'] then normalizeSegs absolute (s :: acc) rest
        else normalizeSegs absolute acc' rest
    else normalizeSegs absolute (s :: acc) rest

/-- Join segments with `'/'`. -/
def joinSlash : List (List Char) → List Char
  | [] => []
  | [s] => s
  | s :: ss => s ++ '/' :: joinSlash ss

/-- Node `path.join(dir, p)` (posix): concatenate with a `'/'` and
normalize; the empty outcome is `'.'`. -/
def pathJoin (dir p : List Char) : List Char :=
  let combined := dir ++ '/' :: p
  let absolute := combined.head? = some '/'
  let parts := normalizeSegs absolute [] (splitSlash combined)
  let body := joinSlash parts
  if absolute then
    if body = [] then ['/'] else '/' :: body
  else
    if body = [] then ['.'] else body

/-- Node `path.dirname` (posix): strip trailing slashes, drop the last
component, strip trailing slashes again; empty results collapse to `'.'`
(or `'/'` for rooted paths). -/
def dirname (p : List Char) : List Char :=
  if p = [] then ['.']
  else
    let rooted := p.head? = some '/'
    let q := (p.reverse.dropWhile (fun c => c = '/')).reverse
    if q = [] then if rooted then ['/'] else ['.']
    else
      let r := ((q.reverse.dropWhile (fun c => c ≠ '/')).dropWhile (fun c => c = '/')).reverse
      if r = [] then if rooted then ['/'] else ['.']
      else r

/-- A scheme per the WHATWG URL grammar: an ASCII letter followed by
letters, digits, `+`, `-`, `.`, then `':'`.  `isRemoteUrl` of
`preprocess.js` line 280 constructs `new URL(string)` and tests
`url.protocol !== 'file:'`; a string with no scheme fails to parse and is
not remote.  The model reduces URL validity to the presence of a scheme. -/
def schemeChar (d : Char) : Bool :=
  ('a' ≤ d ∧ d ≤ 'z') ∨ ('A' ≤ d ∧ d ≤ 'Z') ∨ ('0' ≤ d ∧ d ≤ '9') ∨
  d = '+' ∨ d = '-' ∨ d = '.'

def urlScheme (s : List Char) : Option (List Char) :=
  match s with
  | c :: rest =>
    if ('a' ≤ c ∧ c ≤ 'z') ∨ ('A' ≤ c ∧ c ≤ 'Z') then
      let body := rest.takeWhile schemeChar
      match rest.drop body.length with
      | ':' :: _ => some (asciiLower (c :: body))
      | _ => none
    else none
  | [] => none

/-- `isRemoteUrl` of `preprocess.js` lines 280-287. -/
def isRemoteUrl (s : List Char) : Bool :=
  match urlScheme s with
  | some sch => sch ≠ "file".toList
  | none => false

/-- The abstract content source (`vfs`): `read` returning `none` models a
thrown read error, `fexists` is `vfs.exists`. -/
structure Vfs where
  read : List Char → Option (List Char)
  fexists : List Char → Bool

/-- The hard failures of the engine (`throw new Error(...)` sites), plus
`fuel` marking exhaustion of the recursion fuel of the model. -/
inductive PErr where
  | cycle (p : List Char)
  | duplicate (p : List Char)
  | readLocal (p : List Char)
  | fuel
deriving DecidableEq, Repr

/-- The result object of `readPlantUmlInclude`. -/
structure ReadResult where
  skip : Bool
  text : List Char
  filePath : List Char
deriving DecidableEq, Repr

/-- `readPlantUmlInclude` of `preprocess.js` lines 136-175: skip library
references (`<...`), fail on a raw reference already on the inclusion
stack, soft-skip failed remote reads, resolve local references against the
base directory (falling back to the raw reference when the joined path
does not exist), re-check the resolved path against the stack, and fail
hard on a failed local read. -/
def readPlantUmlInclude (url dirPath : List Char) (includeStack : List (List Char))
    (vfs : Vfs) : Except PErr ReadResult :=
  if url.head? = some '<' then .ok ⟨true, [], url⟩
  else if url ∈ includeStack then .error (.cycle url)
  else if isRemoteUrl url then
    match vfs.read url with
    | some text => .ok ⟨false, text, url⟩
    | none => .ok ⟨true, [], url⟩
  else
    let joined := pathJoin dirPath url
    let filePath := if vfs.fexists joined then joined else url
    if filePath ∈ includeStack then .error (.cycle filePath)
    else
      match vfs.read filePath with
      | some text => .ok ⟨false, text, filePath⟩
      | none => .error (.readLocal filePath)

/-- `checkIncludeOnce` of `preprocess.js` lines 255-262; returns the grown
include-once list instead of mutating it. -/
def checkIncludeOnce (text filePath : List Char) (includeOnce : List (List Char)) :
    Except PErr (List (List Char)) :=
  if filePath ∈ includeOnce then .error (.duplicate filePath)
  else .ok (includeOnce ++ [filePath])

/-- The line-terminator group `(?:\r\n|\n)` (alternatives in order). -/
def matchNl : List Char → Option (List Char)
  | '\r' :: '\n' :: rest => some rest
  | '\n' :: rest => some rest
  | _ => none

/-- `preprocess.js` lines 183 and 193 splice the user-supplied selector
into the regular-expression SOURCE (template literals), so the selector
is read as ECMAScript pattern text, not matched as a literal string.
One token of that spliced pattern: a character standing for itself, or
the `.` any-character class. -/
inductive PatTok where
  | lit (c : Char)
  | dot
deriving DecidableEq, Repr

/-- ECMAScript pattern syntax characters: a selector character outside
this set denotes itself in the spliced pattern. -/
def patMeta (c : Char) : Bool :=
  c = '^' ∨ c = '$' ∨ c = '\\' ∨ c = '.' ∨ c = '*' ∨ c = '+' ∨ c = '?' ∨
  c = '(' ∨ c = ')' ∨ c = '[' ∨ c = ']' ∨ c = '\x7b' ∨ c = '\x7d' ∨ c = '|'

/-- Reading of the spliced selector as pattern tokens: `.` is the
any-character class, every other character stands for itself.  This
reading agrees with the ECMAScript pattern grammar exactly on selectors
built from `.` and non-syntax characters (`patSupported`); selectors
using the remaining syntax (escapes, quantifiers, classes, groups,
alternation, anchors) are outside the model and outside every theorem
below. -/
def patToks (s : List Char) : List PatTok :=
  s.map fun c => if c = '.' then PatTok.dot else PatTok.lit c

/-- Selectors on which `patToks` is the exact pattern reading. -/
def patSupported (s : List Char) : Bool :=
  s.all fun c => c = '.' ∨ ¬ patMeta c

/-- Match the token sequence at the current position, one character per
token (`.` matches anything but a line terminator). -/
def matchToks : List PatTok → List Char → Option (List Char)
  | [], l => some l
  | _ :: _, [] => none
  | PatTok.lit c :: ts, x :: l => if x = c then matchToks ts l else none
  | PatTok.dot :: ts, x :: l => if dotChar x then matchToks ts l else none

/-- Opening marker of `getPlantUmlTextFromSub` (`preprocess.js` line 183):
`!startsub\s+NAME(?:\r\n|\n)` with greedy, backtracking `\s+` and the
spliced name read as pattern tokens. -/
def subWsName (name : List PatTok) : List Char → Option (List Char)
  | [] => none
  | c :: rest =>
    if isJsWs c then
      match subWsName name rest with
      | some r => some r
      | none => (matchToks name rest).bind matchNl
    else none

/-- `!startsub\s+NAME(?:\r\n|\n)`, anchored at the current position. -/
def subOpenAt (name : List PatTok) (l : List Char) : Option (List Char) :=
  (stripPfx "!startsub".toList l).bind (subWsName name)

/-- `@startuml(?:\r\n|\n)`, anchored at the current position
(`preprocess.js` lines 222 and 241; this pattern has no spliced
selector). -/
def umlOpenAt (l : List Char) : Option (List Char) :=
  (stripPfx "@startuml".toList l).bind matchNl

/-- `@startuml\(id=ID\)(?:\r\n|\n)`, anchored at the current position
(`preprocess.js` line 193; the id is spliced into the pattern between
the escaped parentheses and read as pattern tokens). -/
def idOpenAt (id : List PatTok) (l : List Char) : Option (List Char) :=
  ((stripPfx "@startuml(id=".toList l).bind (matchToks id)).bind
    fun r => (stripPfx [')'] r).bind matchNl

/-- The lazy body `([\s\S]*?)(?:\r\n|\n)END`: the shortest prefix followed
by a line terminator and the literal `endLit`.  Returns the body and the
remainder after `endLit`. -/
def takeBody (endLit : List Char) : List Char → Option (List Char × List Char)
  | [] => none
  | c :: t =>
    match (matchNl (c :: t)).bind (stripPfx endLit) with
    | some rest => some ([], rest)
    | none => (takeBody endLit t).map fun p => (c :: p.1, p.2)

/-- Leftmost position at which `openAt` matches; returns the remainder
after the opening marker. -/
def findOpen (openAt : List Char → Option (List Char)) : List Char → Option (List Char)
  | [] => openAt []
  | c :: t =>
    match openAt (c :: t) with
    | some r => some r
    | none => findOpen openAt t

/-- The `regEx.exec` loop: successive non-overlapping matches, each search
resuming after the end of the previous match; returns the list of body
captures.  A found opening marker with no following terminator+`endLit`
means no further match exists at any later position either (the regex
engine would also fail there, since the missing end lies beyond every
later body start). -/
def collectMatches (openAt : List Char → Option (List Char)) (endLit : List Char) :
    Nat → List Char → List (List Char)
  | 0, _ => []
  | fuel + 1, l =>
    match findOpen openAt l with
    | none => []
    | some afterOpen =>
      match takeBody endLit afterOpen with
      | none => []
      | some (body, rest) => body :: collectMatches openAt endLit fuel rest

/-- `getPlantUmlTextRegEx` of `preprocess.js` lines 202-214: the first
match verbatim, every further match preceded by one `'\n'`. -/
def getPlantUmlTextRegEx (bodies : List (List Char)) : List Char :=
  joinNl bodies

/-- `getPlantUmlTextFromSub` of `preprocess.js` lines 182-185: the sub
selector is spliced into the pattern. -/
def getPlantUmlTextFromSub (text sub : List Char) : List Char :=
  getPlantUmlTextRegEx
    (collectMatches (subOpenAt (patToks sub)) "!endsub".toList (text.length + 1) text)

/-- `getPlantUmlTextFromId` of `preprocess.js` lines 192-195: the id
selector is spliced into the pattern. -/
def getPlantUmlTextFromId (text id : List Char) : List Char :=
  getPlantUmlTextRegEx
    (collectMatches (idOpenAt (patToks id)) "@enduml".toList (text.length + 1) text)

/-- The bodies of all `@startuml ... @enduml` blocks in order. -/
def umlBodies (text : List Char) : List (List Char) :=
  collectMatches umlOpenAt "@enduml".toList (text.length + 1) text

/-- `getPlantUmlTextFromIndex` of `preprocess.js` lines 221-234: walk the
match sequence, emit the body once the zero-based index is reached; a
negative or out-of-range index leaves the accumulator empty. -/
def getPlantUmlTextFromIndex (text : List Char) (index : Int) : List Char :=
  if index < 0 then []
  else ((umlBodies text).get? index.toNat).getD []

/-- `getPlantUmlTextOrFirstBlock` of `preprocess.js` lines 240-248: the
body of the first block, or the whole text when there is no match. -/
def getPlantUmlTextOrFirstBlock (text : List Char) : List Char :=
  match findOpen umlOpenAt text with
  | none => text
  | some afterOpen =>
    match takeBody "@enduml".toList afterOpen with
    | none => text
    | some (body, _) => body

deriving instance DecidableEq for Except

/-- The two traversal-scoped mutable arrays of `preprocessPlantUML`
(`preprocess.js` lines 71-72), threaded explicitly. -/
structure PState where
  includeOnce : List (List Char)
  includeStack : List (List Char)
deriving DecidableEq, Repr

/-- The body of the `line.replace(regExInclude, cb)` callback,
`preprocess.js` lines 92-123, for one line.  `recurse` is the recursive
re-expansion (`preprocessPlantUmlIncludes` with the fuel already
decremented).  An unmatched line is emitted unchanged; `replace`
substitutes the callback result for the matched span only, so the
`leftover` beyond the match survives on every path.  A thrown error
leaves the mutated state visible, as JS exceptions do: in particular the
`includeStack.pop()` of line 121 runs only when the recursive call
returns normally. -/
def processLine
    (recurse : List Char → List Char → PState → Vfs → Except PErr (List Char) × PState)
    (line dirPath : List Char) (st : PState) (vfs : Vfs) :
    Except PErr (List Char) × PState :=
  match matchInclude line with
  | none => (.ok line, st)
  | some m =>
    let includeKw := asciiLower m.kw
    let urlSub := splitOnBang (jsTrim m.ref)
    let url := replEscSpace (urlSub.headD [])
    let sub := urlSub.get? 1
    match readPlantUmlInclude url dirPath st.includeStack vfs with
    | .error e => (.error e, st)
    | .ok result =>
      if result.skip then (.ok (line ++ m.leftover), st)
      else
        match (if includeKw = "include_once".toList then
                 checkIncludeOnce result.text result.filePath st.includeOnce
               else .ok st.includeOnce) with
        | .error e => (.error e, st)
        | .ok once' =>
          let text := result.text
          let text :=
            match sub with
            | some s =>
              if s ≠ [] then
                if includeKw = "includesub".toList then getPlantUmlTextFromSub text s
                else
                  match jsParseInt10 s with
                  | none => getPlantUmlTextFromId text s
                  | some i => getPlantUmlTextFromIndex text i
              else getPlantUmlTextOrFirstBlock text
            | none => getPlantUmlTextOrFirstBlock text
          let st1 : PState := ⟨once', st.includeStack ++ [result.filePath]⟩
          match recurse text (dirname result.filePath) st1 vfs with
          | (.ok t, st2) => (.ok (t ++ m.leftover), ⟨st2.includeOnce, st2.includeStack.dropLast⟩)
          | (.error e, st2) => (.error e, st2)

/-- `diagramLines.map(...)` of `preprocess.js` line 90, with a thrown
error aborting the whole map as a JS exception does. -/
def processLines
    (recurse : List Char → List Char → PState → Vfs → Except PErr (List Char) × PState) :
    List (List Char) → List Char → PState → Vfs → Except PErr (List (List Char)) × PState
  | [], _, st, _ => (.ok [], st)
  | line :: rest, dirPath, st, vfs =>
    match processLine recurse line dirPath st vfs with
    | (.ok s, st1) =>
      match processLines recurse rest dirPath st1 vfs with
      | (.ok ss, st2) => (.ok (s :: ss), st2)
      | (.error e, st2) => (.error e, st2)
    | (.error e, st1) => (.error e, st1)

/-- `preprocessPlantUmlIncludes` of `preprocess.js` lines 84-127: strip
block comments, strip single-line comments, split into lines, expand each
directive line (recursing on included text with the containing directory
as new base), and re-join with `'\n'`.  The `Nat` fuel bounds the
recursion depth; exhaustion is the distinguished `PErr.fuel`. -/
def preprocessPlantUmlIncludes :
    Nat → List Char → List Char → PState → Vfs → Except PErr (List Char) × PState
  | 0, _, _, st, _ => (.error .fuel, st)
  | fuel + 1, diagramText, dirPath, st, vfs =>
    let cleaned := stripSingleLineComments (stripBlockComments diagramText)
    match processLines (preprocessPlantUmlIncludes fuel) (splitOnNl cleaned) dirPath st vfs with
    | (.ok ls, st1) => (.ok (joinNl ls), st1)
    | (.error e, st1) => (.error e, st1)

/-- `preprocessPlantUML` of `preprocess.js` lines 66-74: fresh
include-once and inclusion-stack arrays, base directory `'.'`. -/
def preprocessPlantUML (fuel : Nat) (diagramText : List Char) (vfs : Vfs) :
    Except PErr (List Char) × PState :=
  preprocessPlantUmlIncludes fuel diagramText ['.'] ⟨[], []⟩ vfs

/-- A content source holding exactly one file. -/
def singleVfs (name content : List Char) : Vfs :=
  ⟨fun p => if p = name then some content else none, fun p => p = name⟩

/-- A content source that fails every read and reports nothing existing. -/
def emptyVfs : Vfs := ⟨fun _ => none, fun _ => false⟩

mutual
/-- Values of the relaxed-JSON object model of `preprocessVegaLite`.
`undefined` stands for the JS `undefined` (an absent field, or the explicit
assignment `data.url = undefined`). -/
inductive JVal where
  | undefined : JVal
  | null : JVal
  | bool : Bool → JVal
  | num : Int → JVal
  | str : List Char → JVal
  | arr : JArr → JVal
  | obj : JFields → JVal
/-- A JSON array. -/
inductive JArr where
  | nil : JArr
  | cons : JVal → JArr → JArr
/-- The ordered field list of a JSON object (JS insertion order). -/
inductive JFields where
  | nil : JFields
  | cons : List Char → JVal → JFields → JFields
end

/-- JS truthiness of a parsed value (`!x` in `preprocess.js` line 23). -/
def truthy : JVal → Bool
  | .undefined => false
  | .null => false
  | .bool b => b
  | .num n => n ≠ 0
  | .str s => s ≠ []
  | .arr _ => true
  | .obj _ => true

/-- Field lookup in an object's field list; `undefined` for a missing key. -/
def lookupField : JFields → List Char → JVal
  | .nil, _ => .undefined
  | .cons k v rest, key => if k = key then v else lookupField rest key

/-- JS property access `x.key`: `undefined` on non-objects. -/
def getField : JVal → List Char → JVal
  | .obj fs, key => lookupField fs key
  | _, _ => .undefined

/-- JS assignment `x.key = v`: replace the value in place when the key
exists, append the field otherwise. -/
def setField : JFields → List Char → JVal → JFields
  | .nil, key, v => .cons key v .nil
  | .cons k v' rest, key, v =>
    if k = key then .cons k v rest else .cons k v' (setField rest key v)

/-- Decimal rendering of an integer. -/
def intDec (n : Int) : List Char :=
  (toString n).toList

/-- Lowercase hexadecimal digit. -/
def hexDigit (n : Nat) : Char :=
  if n < 10 then Char.ofNat ('0'.toNat + n) else Char.ofNat ('a'.toNat + n - 10)

/-- The JSON escape of one character, per `JSON.stringify`. -/
def escChar (c : Char) : List Char :=
  if c = '"' then ['\\', '"']
  else if c = '\\' then ['\\', '\\']
  else if c = '\n' then ['\\', 'n']
  else if c = '\r' then ['\\', 'r']
  else if c = '\t' then ['\\', 't']
  else if c = '\x08' then ['\\', 'b']
  else if c = '\x0c' then ['\\', 'f']
  else if c.toNat < 32 then
    ['\\', 'u', '0', '0', hexDigit (c.toNat / 16), hexDigit (c.toNat % 16)]
  else [c]

/-- A JSON string literal. -/
def escStr (s : List Char) : List Char :=
  '"' :: (s.map escChar).flatten ++ ['"']

/-- Comma-join pre-rendered pieces. -/
def joinComma : List (List Char) → List Char
  | [] => []
  | [x] => x
  | x :: xs => x ++ ',' :: joinComma xs

mutual
/-- `JSON.stringify` (compact form, no spacing).  Inside arrays an
`undefined` element renders as `null`; inside objects an `undefined`
field is omitted (which is how `data.url = undefined` makes the `url`
key absent from the serialized output). -/
def stringify : JVal → List Char
  | .undefined => "null".toList
  | .null => "null".toList
  | .bool b => if b then "true".toList else "false".toList
  | .num n => intDec n
  | .str s => escStr s
  | .arr xs => '[' :: stringifyArr xs ++ [']']
  | .obj fs => '\x7b' :: stringifyFields fs ++ ['\x7d']
/-- Array elements, comma separated. -/
def stringifyArr : JArr → List Char
  | .nil => []
  | .cons x .nil => stringify x
  | .cons x rest => stringify x ++ ',' :: stringifyArr rest
/-- Object fields, comma separated, skipping `undefined` values (an
`undefined` field contributes nothing, not even a comma). -/
def stringifyFields : JFields → List Char
  | .nil => []
  | .cons k v rest =>
    match v with
    | .undefined => stringifyFields rest
    | _ =>
      match stringifyFields rest with
      | [] => escStr k ++ ':' :: stringify v
      | r => escStr k ++ ':' :: stringify v ++ ',' :: r
end

/-- JS string coercion of the value handed to `vfs.read(data.url)`.  The
claims only exercise string URLs; the other cases follow `String()`
loosely (arrays coerce via `join(',')` in JS, simplified here). -/
def jsToStr : JVal → List Char
  | .str s => s
  | .num n => intDec n
  | .bool b => if b then "true".toList else "false".toList
  | .null => "null".toList
  | .undefined => "undefined".toList
  | .arr _ => []
  | .obj _ => "[object Object]".toList

/-- The extension of a URL per the regex `(?:\.([^.]+))?$` of
`preprocess.js` line 49: the non-empty run after the last dot. -/
def urlExt (u : List Char) : Option (List Char) :=
  let after := (u.reverse.takeWhile (fun c => c ≠ '.')).reverse
  if after.length = u.length then none
  else if after = [] then none
  else some after

/-- The recognized data formats of `preprocess.js` line 50. -/
def knownFormats : List (List Char) :=
  ["json".toList, "csv".toList, "tsv".toList, "dsv".toList, "topojson".toList]

/-- The inferred `format.type` of `preprocess.js` lines 49-53. -/
def inferFormatType (u : List Char) : List Char :=
  match urlExt u with
  | some e => if e ∈ knownFormats then e else "json".toList
  | none => "json".toList

/-- Failures of the sibling transform. -/
inductive VErr where
  | parse : VErr
  | readLocal : List Char → VErr
deriving DecidableEq, Repr

/-- `preprocessVegaLite` of `preprocess.js` lines 9-59.  The relaxed-JSON
parser (`JSON5.parse`, an external library) is abstracted as the `parse`
parameter mapping a document to a value of the JSON model (`none` models
a parse exception).  The rest follows the source: a falsy document /
`data` / `data.url` returns the input unchanged; a failed read is soft
(input returned unchanged) for remote URLs and hard for local ones; the
fetched content is attached as `values`, a `format` is inferred from the
URL extension when `data.format` is falsy, `url` is set to `undefined`,
and the object is re-serialized compactly. -/
def preprocessVegaLite (parse : List Char → Option JVal) (diagramText : List Char)
    (vfs : Vfs) : Except VErr (List Char) :=
  match parse diagramText with
  | none => .error .parse
  | some diagramObject =>
    if ¬ truthy diagramObject ∨ ¬ truthy (getField diagramObject "data".toList) ∨
        ¬ truthy (getField (getField diagramObject "data".toList) "url".toList) then
      .ok diagramText
    else
      match diagramObject, getField diagramObject "data".toList with
      | .obj ofs, .obj dfs =>
        let url := jsToStr (lookupField dfs "url".toList)
        match vfs.read url with
        | none =>
          if isRemoteUrl url then .ok diagramText
          else .error (.readLocal url)
        | some content =>
          let d1 := setField dfs "values".toList (.str content)
          let d2 :=
            if ¬ truthy (lookupField d1 "format".toList) then
              setField d1 "format".toList
                (.obj (.cons "type".toList (.str (inferFormatType url)) .nil))
            else d1
          let d3 := setField d2 "url".toList .undefined
          .ok (stringify (.obj (setField ofs "data".toList (.obj d3))))
      | _, _ => .ok diagramText

/-- Removal of the first field with the given key. -/
def removeField : JFields → List Char → JFields
  | .nil, _ => .nil
  | .cons k v rest, key => if k = key then rest else .cons k v (removeField rest key)

/-- A well-behaved file name: non-empty, not a dot segment, and free of
whitespace, `!`, `<`, `:`, `/` and apostrophes, so that it passes through
the directive grammar, the trim/split/unescape steps and `path.join`
verbatim. -/
def goodChar (c : Char) : Bool :=
  ¬ isJsWs c ∧ c ≠ '!' ∧ c ≠ '<' ∧ c ≠ ':' ∧ c ≠ '/' ∧ c ≠ '\''

/-- A name all of whose characters are `goodChar`, and which is not a dot
segment. -/
def goodName (n : List Char) : Bool :=
  n ≠ [] ∧ n ≠ ['.'] ∧ n ≠ ['.', '.'] ∧ n.all goodChar

/-- A character that can take part in no comment, directive or block
marker. -/
def plainChar (c : Char) : Bool :=
  c ≠ '!' ∧ c ≠ '@' ∧ c ≠ '\''

/-- Text that the whole pipeline passes through unchanged. -/
def plainText (l : List Char) : Bool := l.all plainChar

/-- A text interleaving fillers with named sub-blocks
`!startsub NAME⏎body⏎!endsub`, ending in a final filler. -/
def mkSubs (name : List Char) : List (List Char × List Char) → List Char → List Char
  | [], fin => fin
  | (f, b) :: rest, fin =>
    f ++ "!startsub ".toList ++ name ++ '\n' :: b ++ '\n' :: "!endsub".toList ++
      mkSubs name rest fin

/-- A text interleaving fillers with top-level blocks
`@startuml⏎body⏎@enduml`, ending in a final filler. -/
def mkUmls : List (List Char × List Char) → List Char → List Char
  | [], fin => fin
  | (f, b) :: rest, fin =>
    f ++ "@startuml".toList ++ '\n' :: b ++ '\n' :: "@enduml".toList ++ mkUmls rest fin

/-- Hypotheses on one filler/body pair of `mkSubs`: the filler cannot
start a marker, the body cannot contain an end marker or end in a
carriage return. -/
def subPairOk (p : List Char × List Char) : Bool :=
  p.1.all (fun c => c ≠ '!') ∧ p.2.all (fun c => c ≠ '!' ∧ c ≠ '\r')

/-- Hypotheses on one filler/body pair of `mkUmls`. -/
def umlPairOk (p : List Char × List Char) : Bool :=
  p.1.all (fun c => c ≠ '@') ∧ p.2.all (fun c => c ≠ '@' ∧ c ≠ '\r')

/-- A name acceptable to the sub-block opening marker: non-empty with no
whitespace (as produced by the directive grammar, which also excludes
`!`). -/
def subNameOk (name : List Char) : Bool :=
  name ≠ [] ∧ name.all (fun c => ¬ isJsWs c)

/-- A sub-block selector that the spliced pattern reads literally:
acceptable to the opening marker and free of pattern syntax characters,
so that `patToks` yields only literal tokens. -/
def subNameLit (name : List Char) : Bool :=
  subNameOk name ∧ name.all (fun c => ¬ patMeta c)

/-- Content source with `a.txt` and `b.txt` including each other: the
transitive cycle scenario. -/
def cycVfs : Vfs :=
  ⟨fun p => if p = "a.txt".toList then some "!include b.txt".toList
            else if p = "b.txt".toList then some "!include a.txt".toList else none,
   fun p => p = "a.txt".toList ∨ p = "b.txt".toList⟩

/-- Content source where `a.txt` includes a file that cannot be read. -/
def failVfs : Vfs :=
  ⟨fun p => if p = "a.txt".toList then some "!include missing.txt".toList else none,
   fun p => p = "a.txt".toList⟩

/-- Concrete Vega-Lite view specification value for witnesses: an object
whose `data.url` names a local CSV file and which carries no `format`. -/
def vegaSample : JVal :=
  .obj (.cons "data".toList (.obj (.cons "url".toList (.str "d.csv".toList) .nil)) .nil)

/-- Concrete parse function recognizing exactly one document. -/
def vegaParse : List Char → Option JVal :=
  fun t => if t = "VEGA".toList then some vegaSample else none

/-- Concrete Vega-Lite value without a `data.url` field. -/
def vegaNoUrl : JVal := .obj (.cons "data".toList (.obj .nil) .nil)

/-- Concrete parse function for the no-url document. -/
def vegaParseNoUrl : List Char → Option JVal :=
  fun t => if t = "NOURL".toList then some vegaNoUrl else none

theorem splitOnNl_ne_nil (l : List Char) : splitOnNl l ≠ [] := by
  cases l with
  | nil => simp [splitOnNl]
  | cons c rest =>
    simp only [splitOnNl]
    split
    · simp
    · cases h : splitOnNl rest <;> simp

theorem joinNl_splitOnNl (l : List Char) : joinNl (splitOnNl l) = l := by
  induction l with
  | nil => rfl
  | cons c rest ih =>
    simp only [splitOnNl]
    by_cases hc : c = '\n'
    · rw [if_pos hc]
      cases h : splitOnNl rest with
      | nil => exact absurd h (splitOnNl_ne_nil rest)
      | cons s ss =>
        rw [h] at ih
        subst hc
        simpa [joinNl] using ih
    · rw [if_neg hc]
      cases h : splitOnNl rest with
      | nil => exact absurd h (splitOnNl_ne_nil rest)
      | cons s ss =>
        rw [h] at ih
        cases ss with
        | nil => simp [joinNl] at ih ⊢; exact ih
        | cons s2 ss2 =>
          simp only [joinNl] at ih ⊢
          rw [List.cons_append, ih]

theorem splitOnNl_no_nl (a : List Char) (h : '\n' ∉ a) : splitOnNl a = [a] := by
  induction a with
  | nil => rfl
  | cons c rest ih =>
    have hc : c ≠ '\n' := fun hh => h (hh ▸ List.mem_cons_self c rest)
    have hr : '\n' ∉ rest := fun hh => h (List.mem_cons_of_mem c hh)
    simp only [splitOnNl, if_neg hc, ih hr]

theorem splitOnNl_append (a b : List Char) (h : '\n' ∉ a) :
    splitOnNl (a ++ '\n' :: b) = a :: splitOnNl b := by
  induction a with
  | nil => simp [splitOnNl]
  | cons c rest ih =>
    have hc : c ≠ '\n' := fun hh => h (hh ▸ List.mem_cons_self c rest)
    have hr : '\n' ∉ rest := fun hh => h (List.mem_cons_of_mem c hh)
    have h2 := ih hr
    simp only [List.cons_append, splitOnNl, if_neg hc, List.append_eq] at h2 ⊢
    rw [h2]

theorem mem_of_mem_splitOnNl :
    ∀ (l seg : List Char), seg ∈ splitOnNl l → ∀ c ∈ seg, c ∈ l := by
  intro l
  induction l with
  | nil =>
    intro seg hseg c hc
    simp [splitOnNl] at hseg
    subst hseg
    simp at hc
  | cons d rest ih =>
    intro seg hseg c hc
    by_cases hd : d = '\n'
    · rw [splitOnNl, if_pos hd] at hseg
      rcases List.mem_cons.mp hseg with h1 | h1
      · subst h1; simp at hc
      · exact List.mem_cons_of_mem d (ih seg h1 c hc)
    · rw [splitOnNl, if_neg hd] at hseg
      rcases hrest : splitOnNl rest with _ | ⟨s, ss⟩
      · exact absurd hrest (splitOnNl_ne_nil rest)
      · rw [hrest] at hseg
        rcases List.mem_cons.mp hseg with h1 | h1
        · subst h1
          rcases List.mem_cons.mp hc with h2 | h2
          · exact h2 ▸ List.mem_cons_self d rest
          · exact List.mem_cons_of_mem d
              (ih s (by rw [hrest]; exact List.mem_cons_self s ss) c h2)
        · exact List.mem_cons_of_mem d
            (ih seg (by rw [hrest]; exact List.mem_cons_of_mem s h1) c hc)

theorem splitFirst2_none (a b : Char) (l : List Char) (h : b ∉ l) :
    splitFirst2 a b l = none := by
  induction l with
  | nil => rfl
  | cons x rest ih =>
    cases rest with
    | nil => rfl
    | cons y rest2 =>
      have hy : y ≠ b := fun hh => h (hh ▸ List.mem_cons_of_mem x (List.mem_cons_self y rest2))
      have hr : b ∉ y :: rest2 := fun hh => h (List.mem_cons_of_mem x hh)
      simp only [splitFirst2, ih hr]
      rw [if_neg]
      rintro ⟨-, h2⟩
      exact hy h2

theorem stripBlockComments_id (l : List Char) (h : '\'' ∉ l) :
    stripBlockComments l = l := by
  unfold stripBlockComments
  cases hl : l.length with
  | zero => simp [stripBlockCommentsAux]
  | succ n => simp [stripBlockCommentsAux, splitFirst2_none '/' '\'' l h]

theorem countApos_eq_zero (l : List Char) (h : '\'' ∉ l) : countApos l = 0 := by
  unfold countApos
  rw [List.countP_eq_zero]
  intro a ha
  simp only [decide_eq_true_eq]
  exact fun hh => h (hh ▸ ha)

theorem dotSuffix_suffix (l : List Char) : dotSuffix l <:+ l := by
  refine ⟨(l.reverse.dropWhile dotChar).reverse, ?_⟩
  rw [dotSuffix, ← List.reverse_append, List.takeWhile_append_dropWhile, List.reverse_reverse]

theorem stripSegment_keep (seg : List Char) (h : '\'' ∉ seg) :
    stripSegment seg = (seg, true) := by
  have h1 : '\'' ∉ dotSuffix seg := fun hm => h ((dotSuffix_suffix seg).sublist.subset hm)
  have h2 : '\'' ∉ seg.dropLast := fun hm => h ((List.dropLast_sublist seg).subset hm)
  have h3 : '\'' ∉ dotSuffix seg.dropLast :=
    fun hm => h2 ((dotSuffix_suffix seg.dropLast).sublist.subset hm)
  have e1 : countApos (dotSuffix seg) = 0 := countApos_eq_zero _ h1
  have e3 : countApos (dotSuffix seg.dropLast) = 0 := countApos_eq_zero _ h3
  simp only [stripSegment, e1, e3]
  norm_num

theorem stripSegs_keep (segs : List (List Char)) (h : ∀ seg ∈ segs, '\'' ∉ seg) :
    stripSegs segs = joinNl segs := by
  induction segs with
  | nil => rfl
  | cons seg rest ih =>
    cases rest with
    | nil => rfl
    | cons s2 ss2 =>
      have h1 := stripSegment_keep seg (h seg (List.mem_cons_self _ _))
      have h2 := ih (fun s hs => h s (List.mem_cons_of_mem _ hs))
      simp only [stripSegs, h1, h2, joinNl]
      simp

theorem stripSingleLineComments_id (l : List Char) (h : '\'' ∉ l) :
    stripSingleLineComments l = l := by
  unfold stripSingleLineComments
  rw [stripSegs_keep _ (fun seg hs hm => h (mem_of_mem_splitOnNl l seg hs '\'' hm))]
  exact joinNl_splitOnNl l

theorem stripComments_id (l : List Char) (h : '\'' ∉ l) :
    stripSingleLineComments (stripBlockComments l) = l := by
  rw [stripBlockComments_id l h, stripSingleLineComments_id l h]

theorem matchInclude_none_of_no_bang (line : List Char) (h : '!' ∉ line) :
    matchInclude line = none := by
  simp only [matchInclude]
  cases hrest : line.dropWhile isJsWs with
  | nil => rfl
  | cons c r =>
    have hc : c ≠ '!' := by
      intro hcc
      exact h ((List.dropWhile_sublist isJsWs).subset (hrest ▸ hcc ▸ List.mem_cons_self c r))
    split
    · next heq =>
      exfalso
      injection heq with h1 _
      exact hc h1
    · rfl

theorem processLine_none (recurse) (line dirPath : List Char) (st : PState) (vfs : Vfs)
    (h : matchInclude line = none) :
    processLine recurse line dirPath st vfs = (.ok line, st) := by
  simp [processLine, h]

theorem processLines_none (recurse) (lines : List (List Char)) (dirPath : List Char)
    (st : PState) (vfs : Vfs) (h : ∀ line ∈ lines, matchInclude line = none) :
    processLines recurse lines dirPath st vfs = (.ok lines, st) := by
  induction lines with
  | nil => rfl
  | cons line rest ih =>
    have h1 := processLine_none recurse line dirPath st vfs (h line (List.mem_cons_self _ _))
    have h2 := ih (fun s hs => h s (List.mem_cons_of_mem _ hs))
    simp only [processLines, h1, h2]

theorem preprocess_plain (fuel : Nat) (t dirPath : List Char) (st : PState) (vfs : Vfs)
    (h : plainText t = true) :
    preprocessPlantUmlIncludes (fuel + 1) t dirPath st vfs = (.ok t, st) := by
  have hall : ∀ c ∈ t, plainChar c = true := by
    intro c hc
    exact List.all_eq_true.mp h c hc
  have hap : '\'' ∉ t := by
    intro hm
    have := hall '\'' hm
    simp [plainChar] at this
  have hstrip : stripSingleLineComments (stripBlockComments t) = t := stripComments_id t hap
  have hlines : ∀ line ∈ splitOnNl t, matchInclude line = none := by
    intro line hline
    apply matchInclude_none_of_no_bang
    intro hm
    have := hall '!' (mem_of_mem_splitOnNl t line hline '!' hm)
    simp [plainChar] at this
  simp only [preprocessPlantUmlIncludes, hstrip,
    processLines_none _ _ _ _ _ hlines, joinNl_splitOnNl]

theorem refRunAux_all (p : Char) (l : List Char) (h : ∀ x ∈ l, x ≠ ' ') :
    refRunAux p l = (l, []) := by
  induction l generalizing p with
  | nil => rfl
  | cons c rest ih =>
    have hc : c ≠ ' ' := h c (List.mem_cons_self _ _)
    have h2 := ih c (fun x hx => h x (List.mem_cons_of_mem _ hx))
    simp only [refRunAux, h2]
    rw [if_pos (Or.inl hc)]

theorem matchAfterKw_space (c : Char) (cs : List Char)
    (hc : isJsWs c = false) (hall : ∀ x ∈ c :: cs, x ≠ ' ') :
    matchAfterKw (' ' :: c :: cs) = some (c :: cs, [], []) := by
  have hspace : isJsWs ' ' = true := by decide
  have hr := refRunAux_all c cs (fun x hx => hall x (List.mem_cons_of_mem _ hx))
  simp only [matchAfterKw, List.takeWhile, hspace, hc, hr]
  simp [hr]

theorem stripPfx_self_append (p r : List Char) : stripPfx p (p ++ r) = some r := by
  induction p with
  | nil => rfl
  | cons c cs ih => simp [stripPfx, ih]

theorem matchInclude_once (n : List Char) (hne : n ≠ [])
    (hws : ∀ x ∈ n, isJsWs x = false) :
    matchInclude ("!include_once ".toList ++ n) = some ⟨"include_once".toList, n, [], []⟩ := by
  obtain ⟨c, cs, rfl⟩ : ∃ c cs, n = c :: cs := by
    cases n with
    | nil => exact absurd rfl hne
    | cons c cs => exact ⟨c, cs, rfl⟩
  have hc : isJsWs c = false := hws c (List.mem_cons_self _ _)
  have hsp : ∀ x ∈ c :: cs, x ≠ ' ' := by
    intro x hx he
    have := hws x hx
    rw [he] at this
    simp [isJsWs] at this
  have h4 := matchAfterKw_space c cs hc hsp
  have key : matchInclude ("!include_once ".toList ++ c :: cs) =
      (((matchAfterKw (' ' :: c :: cs)).map fun t =>
        (⟨"include_once".toList, t.1, t.2.1, t.2.2⟩ : IncMatch)) <|>
       (tryKw ("_once ".toList ++ c :: cs) "url".toList <|>
        (tryKw ("_once ".toList ++ c :: cs) "sub".toList <|>
         tryKw ("_once ".toList ++ c :: cs) []))) := rfl
  rw [key, h4]
  rfl

theorem matchInclude_plain (n : List Char) (hne : n ≠ [])
    (hws : ∀ x ∈ n, isJsWs x = false) :
    matchInclude ("!include ".toList ++ n) = some ⟨"include".toList, n, [], []⟩ := by
  obtain ⟨c, cs, rfl⟩ : ∃ c cs, n = c :: cs := by
    cases n with
    | nil => exact absurd rfl hne
    | cons c cs => exact ⟨c, cs, rfl⟩
  have hc : isJsWs c = false := hws c (List.mem_cons_self _ _)
  have hsp : ∀ x ∈ c :: cs, x ≠ ' ' := by
    intro x hx he
    have := hws x hx
    rw [he] at this
    simp [isJsWs] at this
  have h4 := matchAfterKw_space c cs hc hsp
  have key : matchInclude ("!include ".toList ++ c :: cs) =
      ((matchAfterKw (' ' :: c :: cs)).map fun t =>
        (⟨"include".toList, t.1, t.2.1, t.2.2⟩ : IncMatch)) := rfl
  rw [key, h4]
  rfl

theorem dropWhile_eq_self_of_all (p : Char → Bool) (l : List Char)
    (h : ∀ x ∈ l, p x = false) : l.dropWhile p = l := by
  cases l with
  | nil => rfl
  | cons c rest => simp [List.dropWhile, h c (List.mem_cons_self _ _)]

theorem jsTrim_id (n : List Char) (h : ∀ x ∈ n, isJsWs x = false) : jsTrim n = n := by
  unfold jsTrim
  rw [dropWhile_eq_self_of_all _ _ h,
    dropWhile_eq_self_of_all _ _ (fun x hx => h x (List.mem_reverse.mp hx)),
    List.reverse_reverse]

theorem splitOnBang_no_bang (n : List Char) (h : '!' ∉ n) : splitOnBang n = [n] := by
  induction n with
  | nil => rfl
  | cons c rest ih =>
    have hc : c ≠ '!' := fun hh => h (hh ▸ List.mem_cons_self c rest)
    have hr : '!' ∉ rest := fun hh => h (List.mem_cons_of_mem c hh)
    simp only [splitOnBang, if_neg hc, ih hr]

theorem replEscSpace_id (n : List Char) (h : ' ' ∉ n) : replEscSpace n = n := by
  induction n with
  | nil => rfl
  | cons c rest ih =>
    have hr : ' ' ∉ rest := fun hm => h (List.mem_cons_of_mem _ hm)
    have ih2 := ih hr
    unfold replEscSpace
    split
    · next rest' heq =>
      exfalso
      exact h (heq ▸ (by simp : ' ' ∈ '\\' :: ' ' :: rest'))
    · next c' rest' heq =>
      injection heq with h1 h2
      subst h1
      subst h2
      rw [ih2]
    · next heq => exact List.noConfusion heq

theorem urlScheme_none (n : List Char) (h : ':' ∉ n) : urlScheme n = none := by
  cases n with
  | nil => rfl
  | cons c rest =>
    have hr : ':' ∉ rest := fun hm => h (List.mem_cons_of_mem _ hm)
    have e : urlScheme (c :: rest) =
        (if ('a' ≤ c ∧ c ≤ 'z') ∨ ('A' ≤ c ∧ c ≤ 'Z') then
          match rest.drop (rest.takeWhile schemeChar).length with
          | ':' :: _ => some (asciiLower (c :: rest.takeWhile schemeChar))
          | _ => none
        else none) := rfl
    rw [e]
    by_cases hl : ('a' ≤ c ∧ c ≤ 'z') ∨ ('A' ≤ c ∧ c ≤ 'Z')
    · rw [if_pos hl]
      cases hd : List.drop (List.takeWhile schemeChar rest).length rest with
      | nil => rfl
      | cons d ds =>
        have hdne : d ≠ ':' := by
          intro he
          apply hr
          apply List.drop_subset (List.takeWhile schemeChar rest).length rest
          rw [hd, ← he]
          exact List.mem_cons_self d ds
        split
        · next heq =>
          exfalso
          injection heq with he1 _
          exact hdne he1
        · rfl
    · rw [if_neg hl]

theorem isRemoteUrl_false_no_colon (n : List Char) (h : ':' ∉ n) :
    isRemoteUrl n = false := by
  unfold isRemoteUrl
  rw [urlScheme_none n h]

theorem splitSlash_no_slash (n : List Char) (h : '/' ∉ n) : splitSlash n = [n] := by
  induction n with
  | nil => rfl
  | cons c rest ih =>
    have hc : c ≠ '/' := fun hh => h (hh ▸ List.mem_cons_self c rest)
    have hr : '/' ∉ rest := fun hh => h (List.mem_cons_of_mem c hh)
    simp only [splitSlash, if_neg hc, ih hr]

theorem pathJoin_dot (n : List Char) (hne : n ≠ []) (hd1 : n ≠ ['.'])
    (hd2 : n ≠ ['.', '.']) (hs : '/' ∉ n) : pathJoin ['.'] n = n := by
  have h1 : splitSlash n = [n] := splitSlash_no_slash n hs
  have hsp : splitSlash ('.' :: '/' :: n) = ['.'] :: [n] := by
    have e : splitSlash ('.' :: '/' :: n) = ['.'] :: splitSlash n := rfl
    rw [e, h1]
  have key : pathJoin ['.'] n =
      (if joinSlash (normalizeSegs false [] (splitSlash ('.' :: '/' :: n))) = []
       then ['.']
       else joinSlash (normalizeSegs false [] (splitSlash ('.' :: '/' :: n)))) := rfl
  have hn1 : normalizeSegs false [] (['.'] :: [n]) = normalizeSegs false [] [n] := rfl
  have hn2 : normalizeSegs false [] [n] = [n] := by
    unfold normalizeSegs
    rw [if_neg (by rintro (hc | hc); exacts [hne hc, hd1 hc]), if_neg hd2]
    rfl
  rw [key, hsp, hn1, hn2]
  have hj : joinSlash [n] = n := rfl
  rw [hj, if_neg hne]

theorem dirname_no_slash (n : List Char) (hne : n ≠ []) (hs : '/' ∉ n) :
    dirname n = ['.'] := by
  have hrev : ∀ x ∈ n.reverse, x ≠ '/' := by
    intro x hx he
    exact hs (he ▸ List.mem_reverse.mp hx)
  have h1 : n.reverse.dropWhile (fun c => c = '/') = n.reverse := by
    apply dropWhile_eq_self_of_all
    intro x hx
    simp [hrev x hx]
  have h2 : n.reverse.dropWhile (fun c => c ≠ '/') = [] := by
    rw [List.dropWhile_eq_nil_iff]
    intro x hx
    simp [hrev x hx]
  have hhead : ¬ n.head? = some '/' := by
    cases n with
    | nil => simp
    | cons c rest =>
      simp only [List.head?]
      intro hc
      injection hc with hc2
      exact hs (hc2 ▸ List.mem_cons_self c rest)
  unfold dirname
  rw [if_neg hne]
  simp only [h1, List.reverse_reverse, h2, List.dropWhile_nil, List.reverse_nil]
  simp [hhead]

theorem umlOpenAt_ne (c : Char) (l : List Char) (hc : c ≠ '@') :
    umlOpenAt (c :: l) = none := by
  unfold umlOpenAt
  have e : stripPfx "@startuml".toList (c :: l) =
      if '@' = c then stripPfx "startuml".toList l else none := rfl
  rw [e, if_neg (Ne.symm hc)]
  rfl

theorem subOpenAt_ne (name : List PatTok) (c : Char) (l : List Char) (hc : c ≠ '!') :
    subOpenAt name (c :: l) = none := by
  unfold subOpenAt
  have e : stripPfx "!startsub".toList (c :: l) =
      if '!' = c then stripPfx "startsub".toList l else none := rfl
  rw [e, if_neg (Ne.symm hc)]
  rfl

theorem findOpen_none (openAt : List Char → Option (List Char)) (m : Char)
    (hnil : openAt [] = none) (hop : ∀ c l', c ≠ m → openAt (c :: l') = none)
    (l : List Char) (h : m ∉ l) : findOpen openAt l = none := by
  induction l with
  | nil => simpa [findOpen] using hnil
  | cons c rest ih =>
    have hc : c ≠ m := fun he => h (he ▸ List.mem_cons_self c rest)
    have hr : m ∉ rest := fun hm => h (List.mem_cons_of_mem _ hm)
    simp only [findOpen, hop c rest hc, ih hr]

theorem findOpen_append (openAt : List Char → Option (List Char)) (m : Char)
    (hop : ∀ c l', c ≠ m → openAt (c :: l') = none)
    (f r : List Char) (h : m ∉ f) :
    findOpen openAt (f ++ r) = findOpen openAt r := by
  induction f with
  | nil => rfl
  | cons c f' ih =>
    have hc : c ≠ m := fun he => h (he ▸ List.mem_cons_self c f')
    have hf : m ∉ f' := fun hm => h (List.mem_cons_of_mem _ hm)
    simp only [List.cons_append, findOpen, List.append_eq, hop c (f' ++ r) hc, ih hf]

theorem getPlantUmlTextOrFirstBlock_plain (t : List Char) (h : '@' ∉ t) :
    getPlantUmlTextOrFirstBlock t = t := by
  unfold getPlantUmlTextOrFirstBlock
  rw [findOpen_none umlOpenAt '@' rfl (fun c l' hc => umlOpenAt_ne c l' hc) t h]

theorem rpi_cycle_raw (url dirPath : List Char) (stack : List (List Char)) (vfs : Vfs)
    (h1 : ¬ url.head? = some '<') (h2 : url ∈ stack) :
    readPlantUmlInclude url dirPath stack vfs = .error (.cycle url) := by
  unfold readPlantUmlInclude
  rw [if_neg h1, if_pos h2]

theorem rpi_cycle_resolved (url dirPath : List Char) (stack : List (List Char)) (vfs : Vfs)
    (h1 : ¬ url.head? = some '<') (h2 : url ∉ stack) (h3 : isRemoteUrl url = false)
    (h4 : vfs.fexists (pathJoin dirPath url) = true)
    (h5 : pathJoin dirPath url ∈ stack) :
    readPlantUmlInclude url dirPath stack vfs = .error (.cycle (pathJoin dirPath url)) := by
  unfold readPlantUmlInclude
  rw [if_neg h1, if_neg h2]
  simp only [h3, Bool.false_eq_true, if_false, h4, if_true, if_pos h5]

theorem rpi_remote_soft (url dirPath : List Char) (stack : List (List Char)) (vfs : Vfs)
    (h1 : ¬ url.head? = some '<') (h2 : url ∉ stack) (h3 : isRemoteUrl url = true)
    (h4 : vfs.read url = none) :
    readPlantUmlInclude url dirPath stack vfs = .ok ⟨true, [], url⟩ := by
  unfold readPlantUmlInclude
  rw [if_neg h1, if_neg h2]
  simp only [h3, if_true, h4]

theorem rpi_local_hard (url dirPath : List Char) (stack : List (List Char)) (vfs : Vfs)
    (h1 : ¬ url.head? = some '<') (h2 : url ∉ stack) (h3 : isRemoteUrl url = false)
    (fp : List Char)
    (hfp : fp = (if vfs.fexists (pathJoin dirPath url) then pathJoin dirPath url else url))
    (h5 : fp ∉ stack) (h6 : vfs.read fp = none) :
    readPlantUmlInclude url dirPath stack vfs = .error (.readLocal fp) := by
  unfold readPlantUmlInclude
  rw [if_neg h1, if_neg h2]
  simp only [h3, Bool.false_eq_true, if_false, ← hfp, if_neg h5, h6]

theorem rpi_local_ok (url dirPath : List Char) (stack : List (List Char)) (vfs : Vfs)
    (h1 : ¬ url.head? = some '<') (h2 : url ∉ stack) (h3 : isRemoteUrl url = false)
    (fp text : List Char)
    (hfp : fp = (if vfs.fexists (pathJoin dirPath url) then pathJoin dirPath url else url))
    (h5 : fp ∉ stack) (h6 : vfs.read fp = some text) :
    readPlantUmlInclude url dirPath stack vfs = .ok ⟨false, text, fp⟩ := by
  unfold readPlantUmlInclude
  rw [if_neg h1, if_neg h2]
  simp only [h3, Bool.false_eq_true, if_false, ← hfp, if_neg h5, h6]

theorem goodName_parts (n : List Char) (h : goodName n = true) :
    n ≠ [] ∧ n ≠ ['.'] ∧ n ≠ ['.', '.'] ∧
    (∀ x ∈ n, isJsWs x = false) ∧ '!' ∉ n ∧ '<' ∉ n ∧ ':' ∉ n ∧ '/' ∉ n ∧
    '\'' ∉ n ∧ ' ' ∉ n := by
  unfold goodName at h
  simp only [Bool.and_eq_true, decide_eq_true_eq, List.all_eq_true] at h
  have h1 : n ≠ [] := by tauto
  have h2 : n ≠ ['.'] := by tauto
  have h3 : n ≠ ['.', '.'] := by tauto
  have h4 : ∀ x ∈ n, goodChar x = true := by tauto
  have hg : ∀ x ∈ n, isJsWs x = false ∧ x ≠ '!' ∧ x ≠ '<' ∧ x ≠ ':' ∧ x ≠ '/' ∧ x ≠ '\'' := by
    intro x hx
    have := h4 x hx
    unfold goodChar at this
    simp only [Bool.and_eq_true, decide_eq_true_eq, Bool.not_eq_true,
      Bool.not_eq_true'] at this
    tauto
  refine ⟨h1, h2, h3, fun x hx => (hg x hx).1, ?_, ?_, ?_, ?_, ?_, ?_⟩
  · intro hm; exact (hg _ hm).2.1 rfl
  · intro hm; exact (hg _ hm).2.2.1 rfl
  · intro hm; exact (hg _ hm).2.2.2.1 rfl
  · intro hm; exact (hg _ hm).2.2.2.2.1 rfl
  · intro hm; exact (hg _ hm).2.2.2.2.2 rfl
  · intro hm
    have := (hg _ hm).1
    simp [isJsWs] at this

theorem goodName_head_ne_lt (n : List Char) (h : goodName n = true) :
    ¬ n.head? = some '<' := by
  obtain ⟨hne, -, -, -, -, hlt, -⟩ := goodName_parts n h
  cases n with
  | nil => simp
  | cons c rest =>
    simp only [List.head?]
    intro he
    injection he with he2
    exact hlt (he2 ▸ List.mem_cons_self c rest)

theorem processLine_url_parts (n : List Char) (h : goodName n = true) :
    replEscSpace ((splitOnBang (jsTrim n)).headD []) = n ∧
    (splitOnBang (jsTrim n)).get? 1 = none := by
  obtain ⟨hne, -, -, hws, hnb, -, -, -, -, hsp⟩ := goodName_parts n h
  rw [jsTrim_id n hws, splitOnBang_no_bang n hnb]
  exact ⟨replEscSpace_id n hsp, rfl⟩

theorem processLine_once_dup (recurse) (n dirPath : List Char) (st : PState) (vfs : Vfs)
    (content : List Char) (hn : goodName n = true)
    (hread : readPlantUmlInclude n dirPath st.includeStack vfs = .ok ⟨false, content, n⟩)
    (hdup : n ∈ st.includeOnce) :
    processLine recurse ("!include_once ".toList ++ n) dirPath st vfs =
      (.error (.duplicate n), st) := by
  obtain ⟨hne, -, -, hws, -, -, -, -, -, -⟩ := goodName_parts n hn
  obtain ⟨hurl, hsub⟩ := processLine_url_parts n hn
  have hmatch := matchInclude_once n hne hws
  simp only [processLine, hmatch, hurl, hsub, hread, checkIncludeOnce, if_pos hdup]
  rfl

theorem processLine_once_new (recurse) (n dirPath : List Char) (st : PState) (vfs : Vfs)
    (content : List Char) (hn : goodName n = true)
    (hread : readPlantUmlInclude n dirPath st.includeStack vfs = .ok ⟨false, content, n⟩)
    (hnew : n ∉ st.includeOnce) (hat : '@' ∉ content)
    (hrec : recurse content ['.'] ⟨st.includeOnce ++ [n], st.includeStack ++ [n]⟩ vfs =
      (.ok content, ⟨st.includeOnce ++ [n], st.includeStack ++ [n]⟩)) :
    processLine recurse ("!include_once ".toList ++ n) dirPath st vfs =
      (.ok content, ⟨st.includeOnce ++ [n], st.includeStack⟩) := by
  obtain ⟨hne, hd1, hd2, hws, -, -, -, hsl, -, -⟩ := goodName_parts n hn
  obtain ⟨hurl, hsub⟩ := processLine_url_parts n hn
  have hmatch := matchInclude_once n hne hws
  have hdir : dirname n = ['.'] := dirname_no_slash n hne hsl
  have hfirst : getPlantUmlTextOrFirstBlock content = content :=
    getPlantUmlTextOrFirstBlock_plain content hat
  simp only [processLine, hmatch, hurl, hsub, hread, checkIncludeOnce, if_neg hnew,
    hfirst, hdir]
  rw [if_pos (by decide : asciiLower "include_once".toList = "include_once".toList)]
  simp [hrec, List.dropLast_concat]

theorem processLine_plain_ok (recurse) (n dirPath : List Char) (st : PState) (vfs : Vfs)
    (content : List Char) (hn : goodName n = true)
    (hread : readPlantUmlInclude n dirPath st.includeStack vfs = .ok ⟨false, content, n⟩)
    (hat : '@' ∉ content)
    (hrec : recurse content ['.'] ⟨st.includeOnce, st.includeStack ++ [n]⟩ vfs =
      (.ok content, ⟨st.includeOnce, st.includeStack ++ [n]⟩)) :
    processLine recurse ("!include ".toList ++ n) dirPath st vfs = (.ok content, st) := by
  obtain ⟨hne, hd1, hd2, hws, -, -, -, hsl, -, -⟩ := goodName_parts n hn
  obtain ⟨hurl, hsub⟩ := processLine_url_parts n hn
  have hmatch := matchInclude_plain n hne hws
  have hdir : dirname n = ['.'] := dirname_no_slash n hne hsl
  have hfirst : getPlantUmlTextOrFirstBlock content = content :=
    getPlantUmlTextOrFirstBlock_plain content hat
  simp only [processLine, hmatch, hurl, hsub, hread, hfirst, hdir]
  rw [if_neg (by decide : ¬ asciiLower "include".toList = "include_once".toList)]
  simp [hrec, List.dropLast_concat]

theorem rpi_singleVfs (n content : List Char) (hn : goodName n = true) :
    readPlantUmlInclude n ['.'] [] (singleVfs n content) = .ok ⟨false, content, n⟩ := by
  obtain ⟨hne, hd1, hd2, -, -, -, hcolon, hsl, -, -⟩ := goodName_parts n hn
  apply rpi_local_ok n ['.'] [] (singleVfs n content)
    (goodName_head_ne_lt n hn) (by simp)
    (isRemoteUrl_false_no_colon n hcolon) n content
  · rw [pathJoin_dot n hne hd1 hd2 hsl]
    simp [singleVfs]
  · simp
  · simp [singleVfs]

theorem plainText_parts (content : List Char) (h : plainText content = true) :
    '!' ∉ content ∧ '@' ∉ content ∧ '\'' ∉ content := by
  unfold plainText at h
  rw [List.all_eq_true] at h
  refine ⟨?_, ?_, ?_⟩ <;>
    · intro hm
      have := h _ hm
      simp [plainChar] at this

theorem c2_run_once (n content : List Char) (hn : goodName n = true)
    (hc : plainText content = true) :
    preprocessPlantUML 3
      ("!include_once ".toList ++ n ++ '\n' :: ("!include_once ".toList ++ n))
      (singleVfs n content) =
      (.error (.duplicate n), ⟨[n], []⟩) := by
  obtain ⟨hne, hd1, hd2, hws, hnb, hlt, hcolon, hsl, hap, hsp⟩ := goodName_parts n hn
  obtain ⟨-, hat, hcap⟩ := plainText_parts content hc
  have hlit : '\'' ∉ "!include_once ".toList := by decide
  have hnl : '\n' ∉ "!include_once ".toList ++ n := by
    intro hm
    rcases List.mem_append.mp hm with hm | hm
    · revert hm; decide
    · have := hws _ hm; simp [isJsWs] at this
  have hdoc_ap : '\'' ∉ "!include_once ".toList ++ n ++ '\n' ::
      ("!include_once ".toList ++ n) := by
    intro hm
    rcases List.mem_append.mp hm with hm | hm
    · rcases List.mem_append.mp hm with hm | hm
      · exact hlit hm
      · exact hap hm
    · rcases List.mem_cons.mp hm with hm | hm
      · exact absurd hm.symm (by decide)
      · rcases List.mem_append.mp hm with hm | hm
        · exact hlit hm
        · exact hap hm
  have hsplit : splitOnNl ("!include_once ".toList ++ n ++ '\n' ::
      ("!include_once ".toList ++ n)) =
      [("!include_once ".toList ++ n), ("!include_once ".toList ++ n)] := by
    rw [splitOnNl_append _ _ hnl, splitOnNl_no_nl _ hnl]
  have hread := rpi_singleVfs n content hn
  have hplain : ∀ st : PState,
      preprocessPlantUmlIncludes 2 content ['.'] st (singleVfs n content) =
        (.ok content, st) := fun st => preprocess_plain 1 content ['.'] st _ hc
  have hline1 : processLine (preprocessPlantUmlIncludes 2)
      ("!include_once ".toList ++ n) ['.'] ⟨[], []⟩ (singleVfs n content) =
      (.ok content, ⟨[n], []⟩) := by
    have h := processLine_once_new (preprocessPlantUmlIncludes 2) n ['.'] ⟨[], []⟩
      (singleVfs n content) content hn hread (by simp) hat
      (by simpa using hplain ⟨[n], [n]⟩)
    simpa using h
  have hline2 : processLine (preprocessPlantUmlIncludes 2)
      ("!include_once ".toList ++ n) ['.'] ⟨[n], []⟩ (singleVfs n content) =
      (.error (.duplicate n), ⟨[n], []⟩) := by
    exact processLine_once_dup (preprocessPlantUmlIncludes 2) n ['.'] ⟨[n], []⟩
      (singleVfs n content) content hn hread (by simp)
  have e : preprocessPlantUML 3
      ("!include_once ".toList ++ n ++ '\n' :: ("!include_once ".toList ++ n))
      (singleVfs n content) =
      (match processLines (preprocessPlantUmlIncludes 2)
        (splitOnNl (stripSingleLineComments (stripBlockComments
          ("!include_once ".toList ++ n ++ '\n' :: ("!include_once ".toList ++ n)))))
        ['.'] ⟨[], []⟩ (singleVfs n content) with
      | (.ok ls, st1) => (.ok (joinNl ls), st1)
      | (.error er, st1) => (.error er, st1)) := rfl
  rw [e, stripComments_id _ hdoc_ap, hsplit]
  simp only [processLines, hline1, hline2]

theorem c2_run_plain (n content : List Char) (hn : goodName n = true)
    (hc : plainText content = true) :
    preprocessPlantUML 3
      ("!include ".toList ++ n ++ '\n' :: ("!include ".toList ++ n))
      (singleVfs n content) =
      (.ok (content ++ '\n' :: content), ⟨[], []⟩) := by
  obtain ⟨hne, hd1, hd2, hws, hnb, hlt, hcolon, hsl, hap, hsp⟩ := goodName_parts n hn
  obtain ⟨-, hat, hcap⟩ := plainText_parts content hc
  have hlit : '\'' ∉ "!include ".toList := by decide
  have hnl : '\n' ∉ "!include ".toList ++ n := by
    intro hm
    rcases List.mem_append.mp hm with hm | hm
    · revert hm; decide
    · have := hws _ hm; simp [isJsWs] at this
  have hdoc_ap : '\'' ∉ "!include ".toList ++ n ++ '\n' ::
      ("!include ".toList ++ n) := by
    intro hm
    rcases List.mem_append.mp hm with hm | hm
    · rcases List.mem_append.mp hm with hm | hm
      · exact hlit hm
      · exact hap hm
    · rcases List.mem_cons.mp hm with hm | hm
      · exact absurd hm.symm (by decide)
      · rcases List.mem_append.mp hm with hm | hm
        · exact hlit hm
        · exact hap hm
  have hsplit : splitOnNl ("!include ".toList ++ n ++ '\n' ::
      ("!include ".toList ++ n)) =
      [("!include ".toList ++ n), ("!include ".toList ++ n)] := by
    rw [splitOnNl_append _ _ hnl, splitOnNl_no_nl _ hnl]
  have hread := rpi_singleVfs n content hn
  have hplain : ∀ st : PState,
      preprocessPlantUmlIncludes 2 content ['.'] st (singleVfs n content) =
        (.ok content, st) := fun st => preprocess_plain 1 content ['.'] st _ hc
  have hline : ∀ st : PState, st.includeStack = [] →
      processLine (preprocessPlantUmlIncludes 2)
        ("!include ".toList ++ n) ['.'] st (singleVfs n content) =
        (.ok content, st) := by
    intro st hst
    apply processLine_plain_ok (preprocessPlantUmlIncludes 2) n ['.'] st
      (singleVfs n content) content hn (by rw [hst]; exact hread) hat
    rw [hst]
    simpa using hplain ⟨st.includeOnce, [n]⟩
  have e : preprocessPlantUML 3
      ("!include ".toList ++ n ++ '\n' :: ("!include ".toList ++ n))
      (singleVfs n content) =
      (match processLines (preprocessPlantUmlIncludes 2)
        (splitOnNl (stripSingleLineComments (stripBlockComments
          ("!include ".toList ++ n ++ '\n' :: ("!include ".toList ++ n)))))
        ['.'] ⟨[], []⟩ (singleVfs n content) with
      | (.ok ls, st1) => (.ok (joinNl ls), st1)
      | (.error er, st1) => (.error er, st1)) := rfl
  rw [e, stripComments_id _ hdoc_ap, hsplit]
  simp only [processLines, hline ⟨[], []⟩ rfl]
  simp [joinNl]

theorem processLine_stack (recurse) (line dirPath : List Char) (st : PState) (vfs : Vfs)
    (hrec : ∀ t d st1 res st2, recurse t d st1 vfs = (.ok res, st2) →
      st2.includeStack = st1.includeStack)
    (res : List Char) (st' : PState)
    (h : processLine recurse line dirPath st vfs = (.ok res, st')) :
    st'.includeStack = st.includeStack := by
  cases hm : matchInclude line with
  | none =>
    rw [processLine_none recurse line dirPath st vfs hm] at h
    injection h with h1 h2
    rw [← h2]
  | some m =>
    simp only [processLine, hm] at h
    split at h
    · simp at h
    · split at h
      · injection h with h1 h2
        rw [← h2]
      · split at h
        · simp at h
        · split at h
          · next t st2 heq =>
            injection h with h1 h2
            rw [← h2]
            simp only []
            rw [hrec _ _ _ _ _ heq]
            simp [List.dropLast_concat]
          · simp at h

theorem processLines_stack (recurse) (lines : List (List Char)) (dirPath : List Char)
    (st : PState) (vfs : Vfs)
    (hrec : ∀ t d st1 res st2, recurse t d st1 vfs = (.ok res, st2) →
      st2.includeStack = st1.includeStack)
    (res : List (List Char)) (st' : PState)
    (h : processLines recurse lines dirPath st vfs = (.ok res, st')) :
    st'.includeStack = st.includeStack := by
  induction lines generalizing st res st' with
  | nil =>
    unfold processLines at h
    injection h with h1 h2
    rw [← h2]
  | cons line rest ih =>
    unfold processLines at h
    split at h
    · next s st1 heq1 =>
      split at h
      · next ss st2 heq2 =>
        injection h with h3 h4
        rw [← h4]
        rw [ih st1 ss st2 heq2]
        exact processLine_stack recurse line dirPath st vfs hrec s st1 heq1
      · simp at h
    · simp at h

theorem preprocess_stack : ∀ (fuel : Nat) (t dirPath : List Char) (st : PState) (vfs : Vfs)
    (res : List Char) (st' : PState),
    preprocessPlantUmlIncludes fuel t dirPath st vfs = (.ok res, st') →
    st'.includeStack = st.includeStack := by
  intro fuel
  induction fuel with
  | zero =>
    intro t d st vfs res st' h
    exact absurd h (by simp [preprocessPlantUmlIncludes])
  | succ fuel ih =>
    intro t d st vfs res st' h
    simp only [preprocessPlantUmlIncludes] at h
    split at h
    · next ls st1 heq =>
      injection h with h1 h2
      rw [← h2]
      exact processLines_stack (preprocessPlantUmlIncludes fuel) _ d st vfs
        (fun t1 d1 s1 r1 s2 hh => ih t1 d1 s1 vfs r1 s2 hh) ls st1 heq
    · simp at h

theorem stripPfx_cons_ne (p : Char) (ps : List Char) (c : Char) (cs : List Char)
    (h : p ≠ c) : stripPfx (p :: ps) (c :: cs) = none := by
  simp [stripPfx, h]

theorem matchNl_none (c : Char) (t : List Char) (h1 : c ≠ '\r') (h2 : c ≠ '\n') :
    matchNl (c :: t) = none := by
  unfold matchNl
  split
  · next heq => exfalso; injection heq with e1 _; exact h1 e1
  · next heq => exfalso; injection heq with e1 _; exact h2 e1
  · rfl

theorem takeBody_mk (x : Char) (e' : List Char) (hx1 : x ≠ '\n') (hx2 : x ≠ '\r') :
    ∀ (b rest : List Char), x ∉ b → '\r' ∉ b →
    takeBody (x :: e') (b ++ '\n' :: (x :: e') ++ rest) = some (b, rest) := by
  intro b
  induction b with
  | nil =>
    intro rest hb hbr
    have e2 : (matchNl ('\n' :: x :: (e' ++ rest))).bind (stripPfx (x :: e')) = some rest := by
      show stripPfx (x :: e') ((x :: e') ++ rest) = some rest
      exact stripPfx_self_append _ _
    show takeBody (x :: e') ('\n' :: (x :: e') ++ rest) = some ([], rest)
    simp only [takeBody, List.append_eq, List.cons_append, e2]
  | cons c b' ih =>
    intro rest hb hbr
    have hcr : c ≠ '\r' := fun he => hbr (he ▸ List.mem_cons_self c b')
    have hb' : x ∉ b' := fun hm => hb (List.mem_cons_of_mem _ hm)
    have hbr' : '\r' ∉ b' := fun hm => hbr (List.mem_cons_of_mem _ hm)
    have ih2 := ih rest hb' hbr'
    have hnone : (matchNl (c :: (b' ++ '\n' :: (x :: e') ++ rest))).bind
        (stripPfx (x :: e')) = none := by
      by_cases hcn : c = '\n'
      · subst hcn
        have e1 : matchNl ('\n' :: (b' ++ '\n' :: (x :: e') ++ rest)) =
            some (b' ++ '\n' :: (x :: e') ++ rest) := rfl
        rw [e1]
        show stripPfx (x :: e') (b' ++ '\n' :: (x :: e') ++ rest) = none
        cases b' with
        | nil => exact stripPfx_cons_ne x e' '\n' _ hx1
        | cons d ds =>
          have hdx : x ≠ d := fun he => hb' (by rw [he]; exact List.mem_cons_self d ds)
          exact stripPfx_cons_ne x e' d _ hdx
      · rw [matchNl_none c _ hcr hcn]
        rfl
    show (match (matchNl (c :: (b' ++ '\n' :: (x :: e') ++ rest))).bind (stripPfx (x :: e')) with
      | some r => some ([], r)
      | none => Option.map (fun p => (c :: p.1, p.2))
          (takeBody (x :: e') (b' ++ '\n' :: (x :: e') ++ rest))) = some (c :: b', rest)
    rw [hnone, ih2]
    rfl

theorem subNameOk_parts (name : List Char) (h : subNameOk name = true) :
    name ≠ [] ∧ ∀ x ∈ name, isJsWs x = false := by
  unfold subNameOk at h
  simp only [Bool.and_eq_true, decide_eq_true_eq, List.all_eq_true,
    Bool.not_eq_true, Bool.not_eq_true'] at h
  obtain ⟨h1, h2⟩ := h
  exact ⟨h1, fun x hx => h2 x hx⟩

theorem subNameLit_ok (name : List Char) (h : subNameLit name = true) :
    subNameOk name = true := by
  unfold subNameLit at h
  simp only [Bool.and_eq_true, decide_eq_true_eq] at h
  exact h.1

theorem matchToks_patToks_self (name l : List Char) :
    matchToks (patToks name) (name ++ l) = some l := by
  induction name with
  | nil => rfl
  | cons c cs ih =>
    by_cases hc : c = '.'
    · subst hc
      have e1 : patToks ('.' :: cs) = PatTok.dot :: patToks cs := by
        simp [patToks]
      rw [List.cons_append, e1]
      show (if dotChar '.' then matchToks (patToks cs) (cs ++ l) else none) = some l
      rw [if_pos (by decide)]
      exact ih
    · have e1 : patToks (c :: cs) = PatTok.lit c :: patToks cs := by
        simp [patToks, hc]
      rw [List.cons_append, e1]
      show (if c = c then matchToks (patToks cs) (cs ++ l) else none) = some l
      rw [if_pos rfl]
      exact ih

theorem matchToks_patToks_self2 (c : Char) (cs l : List Char) :
    matchToks (patToks (c :: cs)) (c :: (cs ++ l)) = some l := by
  simpa using matchToks_patToks_self (c :: cs) l

theorem subWsName_at (name : List Char) (hne : name ≠ [])
    (hws : ∀ x ∈ name, isJsWs x = false) (R : List Char) :
    subWsName (patToks name) (' ' :: (name ++ '\n' :: R)) = some R := by
  obtain ⟨c, cs, rfl⟩ : ∃ c cs, name = c :: cs := by
    cases name with
    | nil => exact absurd rfl hne
    | cons c cs => exact ⟨c, cs, rfl⟩
  have hc : isJsWs c = false := hws c (List.mem_cons_self _ _)
  have h1 : subWsName (patToks (c :: cs)) (c :: (cs ++ '\n' :: R)) = none := by
    unfold subWsName
    rw [hc]
    rfl
  have h2 : matchToks (patToks (c :: cs)) (c :: (cs ++ '\n' :: R)) =
      some ('\n' :: R) := matchToks_patToks_self2 c cs ('\n' :: R)
  have hsp : isJsWs ' ' = true := by decide
  show subWsName (patToks (c :: cs)) (' ' :: ((c :: cs) ++ '\n' :: R)) = some R
  simp only [List.cons_append, List.append_eq, subWsName, hsp, if_true, hc,
    Bool.false_eq_true, if_false, h2]
  rfl

theorem subOpenAt_marker (name : List Char) (hne : name ≠ [])
    (hws : ∀ x ∈ name, isJsWs x = false) (R : List Char) :
    subOpenAt (patToks name) ("!startsub ".toList ++ name ++ '\n' :: R) = some R := by
  have e0 : "!startsub ".toList ++ name ++ '\n' :: R =
      "!startsub".toList ++ (' ' :: (name ++ '\n' :: R)) := by
    simp
  unfold subOpenAt
  rw [e0, stripPfx_self_append]
  exact subWsName_at name hne hws R

theorem umlOpenAt_marker (R : List Char) :
    umlOpenAt ("@startuml".toList ++ '\n' :: R) = some R := by
  unfold umlOpenAt
  rw [stripPfx_self_append]
  rfl

theorem takeBody_mk2 (x : Char) (e' : List Char) (hx1 : x ≠ '\n') (hx2 : x ≠ '\r')
    (b rest : List Char) (hb : x ∉ b) (hbr : '\r' ∉ b) :
    takeBody (x :: e') (b ++ '\n' :: x :: (e' ++ rest)) = some (b, rest) := by
  have h := takeBody_mk x e' hx1 hx2 b rest hb hbr
  simpa using h

theorem findOpen_of_match (openAt : List Char → Option (List Char)) (l r : List Char)
    (h : openAt l = some r) : findOpen openAt l = some r := by
  cases l with
  | nil => simpa [findOpen] using h
  | cons c t => simp [findOpen, h]

theorem subPairOk_parts (p : List Char × List Char) (h : subPairOk p = true) :
    '!' ∉ p.1 ∧ '!' ∉ p.2 ∧ '\r' ∉ p.2 := by
  unfold subPairOk at h
  simp only [Bool.and_eq_true, List.all_eq_true, decide_eq_true_eq] at h
  obtain ⟨h1, h2⟩ := h
  refine ⟨fun hm => ?_, fun hm => ?_, fun hm => ?_⟩
  · exact (h1 _ hm) rfl
  · exact (h2 _ hm).1 rfl
  · exact (h2 _ hm).2 rfl

theorem collect_subs (name : List Char) (hne : name ≠ [])
    (hws : ∀ x ∈ name, isJsWs x = false) :
    ∀ (pairs : List (List Char × List Char)) (fin : List Char) (fuel : Nat),
    (∀ p ∈ pairs, subPairOk p = true) → '!' ∉ fin →
    (mkSubs name pairs fin).length < fuel →
    collectMatches (subOpenAt (patToks name)) "!endsub".toList fuel (mkSubs name pairs fin) =
      pairs.map Prod.snd := by
  intro pairs
  induction pairs with
  | nil =>
    intro fin fuel hp hfin hlen
    cases fuel with
    | zero => exact absurd hlen (by omega)
    | succ fu =>
      show collectMatches (subOpenAt (patToks name)) "!endsub".toList (fu + 1) fin = []
      simp only [collectMatches,
        findOpen_none (subOpenAt (patToks name)) '!' rfl
          (fun c l' hc => subOpenAt_ne (patToks name) c l' hc) fin hfin]
  | cons p rest ih =>
    obtain ⟨f, b⟩ := p
    intro fin fuel hp hfin hlen
    cases fuel with
    | zero => exact absurd hlen (by omega)
    | succ fu =>
      obtain ⟨hf, hbb, hbr⟩ := subPairOk_parts (f, b) (hp (f, b) (List.mem_cons_self _ _))
      have hrest : ∀ q ∈ rest, subPairOk q = true :=
        fun q hq => hp q (List.mem_cons_of_mem _ hq)
      have emk : mkSubs name ((f, b) :: rest) fin =
          f ++ ("!startsub ".toList ++ name ++ '\n' ::
            (b ++ '\n' :: ("!endsub".toList ++ mkSubs name rest fin))) := by
        simp [mkSubs]
      have hopen : subOpenAt (patToks name) ("!startsub ".toList ++ name ++ '\n' ::
          (b ++ '\n' :: ("!endsub".toList ++ mkSubs name rest fin))) =
          some (b ++ '\n' :: ("!endsub".toList ++ mkSubs name rest fin)) :=
        subOpenAt_marker name hne hws _
      have hfind : findOpen (subOpenAt (patToks name)) (mkSubs name ((f, b) :: rest) fin) =
          some (b ++ '\n' :: ("!endsub".toList ++ mkSubs name rest fin)) := by
        rw [emk, findOpen_append (subOpenAt (patToks name)) '!'
          (fun c l' hc => subOpenAt_ne (patToks name) c l' hc) f _ hf]
        exact findOpen_of_match _ _ _ hopen
      have htake : takeBody "!endsub".toList
          (b ++ '\n' :: ("!endsub".toList ++ mkSubs name rest fin)) =
          some (b, mkSubs name rest fin) := by
        have h2 := takeBody_mk2 '!' "endsub".toList (by decide) (by decide)
          b (mkSubs name rest fin) hbb hbr
        simpa using h2
      have hlen2 : (mkSubs name rest fin).length < fu := by
        have e1 : (mkSubs name ((f, b) :: rest) fin).length =
            f.length + 10 + name.length + 1 + b.length + 1 + 7 +
              (mkSubs name rest fin).length := by
          rw [emk]
          simp [List.length_append]
          omega
        omega
      simp only [collectMatches, hfind, htake, List.map_cons]
      rw [ih fin fu hrest hfin hlen2]

theorem umlPairOk_parts (p : List Char × List Char) (h : umlPairOk p = true) :
    '@' ∉ p.1 ∧ '@' ∉ p.2 ∧ '\r' ∉ p.2 := by
  unfold umlPairOk at h
  simp only [Bool.and_eq_true, List.all_eq_true, decide_eq_true_eq] at h
  obtain ⟨h1, h2⟩ := h
  refine ⟨fun hm => ?_, fun hm => ?_, fun hm => ?_⟩
  · exact (h1 _ hm) rfl
  · exact (h2 _ hm).1 rfl
  · exact (h2 _ hm).2 rfl

theorem collect_umls :
    ∀ (pairs : List (List Char × List Char)) (fin : List Char) (fuel : Nat),
    (∀ p ∈ pairs, umlPairOk p = true) → '@' ∉ fin →
    (mkUmls pairs fin).length < fuel →
    collectMatches umlOpenAt "@enduml".toList fuel (mkUmls pairs fin) =
      pairs.map Prod.snd := by
  intro pairs
  induction pairs with
  | nil =>
    intro fin fuel hp hfin hlen
    cases fuel with
    | zero => exact absurd hlen (by omega)
    | succ fu =>
      show collectMatches umlOpenAt "@enduml".toList (fu + 1) fin = []
      simp only [collectMatches,
        findOpen_none umlOpenAt '@' rfl (fun c l' hc => umlOpenAt_ne c l' hc) fin hfin]
  | cons p rest ih =>
    obtain ⟨f, b⟩ := p
    intro fin fuel hp hfin hlen
    cases fuel with
    | zero => exact absurd hlen (by omega)
    | succ fu =>
      obtain ⟨hf, hbb, hbr⟩ := umlPairOk_parts (f, b) (hp (f, b) (List.mem_cons_self _ _))
      have hrest : ∀ q ∈ rest, umlPairOk q = true :=
        fun q hq => hp q (List.mem_cons_of_mem _ hq)
      have emk : mkUmls ((f, b) :: rest) fin =
          f ++ ("@startuml".toList ++ '\n' ::
            (b ++ '\n' :: ("@enduml".toList ++ mkUmls rest fin))) := by
        simp [mkUmls]
      have hfind : findOpen umlOpenAt (mkUmls ((f, b) :: rest) fin) =
          some (b ++ '\n' :: ("@enduml".toList ++ mkUmls rest fin)) := by
        rw [emk, findOpen_append umlOpenAt '@'
          (fun c l' hc => umlOpenAt_ne c l' hc) f _ hf]
        exact findOpen_of_match _ _ _ (umlOpenAt_marker _)
      have htake : takeBody "@enduml".toList
          (b ++ '\n' :: ("@enduml".toList ++ mkUmls rest fin)) =
          some (b, mkUmls rest fin) := by
        have h2 := takeBody_mk2 '@' "enduml".toList (by decide) (by decide)
          b (mkUmls rest fin) hbb hbr
        simpa using h2
      have hlen2 : (mkUmls rest fin).length < fu := by
        have e1 : (mkUmls ((f, b) :: rest) fin).length =
            f.length + 9 + 1 + b.length + 1 + 7 + (mkUmls rest fin).length := by
          rw [emk]
          simp [List.length_append]
          omega
        omega
      simp only [collectMatches, hfind, htake, List.map_cons]
      rw [ih fin fu hrest hfin hlen2]

theorem getPlantUmlTextFromSub_mkSubs (name : List Char)
    (pairs : List (List Char × List Char)) (fin : List Char)
    (hn : subNameOk name = true) (hp : ∀ p ∈ pairs, subPairOk p = true)
    (hfin : '!' ∉ fin) :
    getPlantUmlTextFromSub (mkSubs name pairs fin) name =
      joinNl (pairs.map Prod.snd) := by
  obtain ⟨hne, hws⟩ := subNameOk_parts name hn
  unfold getPlantUmlTextFromSub getPlantUmlTextRegEx
  rw [collect_subs name hne hws pairs fin ((mkSubs name pairs fin).length + 1)
    hp hfin (by omega)]

theorem umlBodies_mkUmls (pairs : List (List Char × List Char)) (fin : List Char)
    (hp : ∀ p ∈ pairs, umlPairOk p = true) (hfin : '@' ∉ fin) :
    umlBodies (mkUmls pairs fin) = pairs.map Prod.snd := by
  unfold umlBodies
  rw [collect_umls pairs fin ((mkUmls pairs fin).length + 1) hp hfin (by omega)]

theorem lookupField_setField_ne : ∀ (fs : JFields) (key k : List Char) (v : JVal),
    k ≠ key → lookupField (setField fs key v) k = lookupField fs k
  | .nil, key, k, v, h => by
    simp only [setField, lookupField]
    rw [if_neg (fun hh => h hh.symm)]
  | .cons k' v' rest, key, k, v, h => by
    have ih := lookupField_setField_ne rest key k v h
    by_cases hk : k' = key
    · subst hk
      simp only [setField, if_pos rfl, lookupField]
      rw [if_neg (fun hh => h hh.symm), if_neg (fun hh => h hh.symm)]
    · simp only [setField, if_neg hk, lookupField]
      by_cases hk2 : k' = k
      · rw [if_pos hk2, if_pos hk2]
      · rw [if_neg hk2, if_neg hk2, ih]

theorem stringifyFields_set_undef : ∀ (fs : JFields) (key : List Char),
    stringifyFields (setField fs key .undefined) =
      stringifyFields (removeField fs key)
  | .nil, key => by simp [setField, removeField, stringifyFields]
  | .cons k v rest, key => by
    have ih := stringifyFields_set_undef rest key
    by_cases hk : k = key
    · subst hk
      simp only [setField, if_pos rfl, removeField, stringifyFields]
      simp
    · simp only [setField, if_neg hk, removeField, if_neg hk]
      cases v with
      | undefined => simpa [stringifyFields] using ih
      | null => simp only [stringifyFields, ih]
      | bool b => simp only [stringifyFields, ih]
      | num n => simp only [stringifyFields, ih]
      | str s2 => simp only [stringifyFields, ih]
      | arr xs => simp only [stringifyFields, ih]
      | obj fs2 => simp only [stringifyFields, ih]

theorem preprocessVegaLite_nourl (parse : List Char → Option JVal)
    (text : List Char) (vfs : Vfs) (obj : JVal)
    (hp : parse text = some obj)
    (hu : getField (getField obj "data".toList) "url".toList = .undefined) :
    preprocessVegaLite parse text vfs = .ok text := by
  simp only [preprocessVegaLite, hp]
  rw [if_pos]
  right
  right
  rw [hu]
  simp [truthy]

theorem preprocessVegaLite_inline (parse : List Char → Option JVal)
    (text : List Char) (vfs : Vfs) (ofs dfs : JFields) (u content : List Char)
    (hp : parse text = some (.obj ofs))
    (hd : lookupField ofs "data".toList = .obj dfs)
    (hu : lookupField dfs "url".toList = .str u)
    (hune : u ≠ [])
    (hread : vfs.read u = some content)
    (hfmt : lookupField dfs "format".toList = .undefined) :
    preprocessVegaLite parse text vfs =
      .ok (stringify (.obj (setField ofs "data".toList (.obj
        (setField (setField (setField dfs "values".toList (.str content))
          "format".toList
          (.obj (.cons "type".toList (.str (inferFormatType u)) .nil)))
          "url".toList .undefined))))) := by
  have hd' : lookupField ofs ('d' :: 'a' :: 't' :: 'a' :: []) = JVal.obj dfs := hd
  have hu' : lookupField dfs ('u' :: 'r' :: 'l' :: []) = JVal.str u := hu
  have hvne : ("format".toList : List Char) ≠ "values".toList := by decide
  have hfmt2 : lookupField (setField dfs "values".toList (.str content))
      "format".toList = JVal.undefined := by
    rw [lookupField_setField_ne dfs "values".toList "format".toList _ hvne, hfmt]
  have hfmt2' : lookupField (setField dfs ('v' :: 'a' :: 'l' :: 'u' :: 'e' :: 's' :: [])
      (JVal.str content)) ('f' :: 'o' :: 'r' :: 'm' :: 'a' :: 't' :: []) =
      JVal.undefined := hfmt2
  simp only [preprocessVegaLite, hp]
  rw [if_neg]
  · simp only [getField, hd, hd', hu, hu', jsToStr, hread, hfmt2, hfmt2', truthy]
    simp
  · rw [show getField (JVal.obj ofs) "data".toList = .obj dfs from hd]
    simp only [getField, hu, truthy]
    simp [hune]

/-- C1: a raw reference already on the inclusion stack fails with a cycle
error before any path resolution (for every content source and base
directory alike); a local reference whose resolved path (joined with the
base directory) is on the stack fails with a cycle error on the re-check;
and a transitive cycle (`a.txt` includes `b.txt` includes `a.txt`) makes
the whole top-level expansion abort with the cycle error rather than
loop. -/
theorem claim_c1_cycle_error :
    (∀ (url dirPath : List Char) (stack : List (List Char)) (vfs : Vfs),
      ¬ url.head? = some '<' → url ∈ stack →
      readPlantUmlInclude url dirPath stack vfs = .error (.cycle url)) ∧
    (∀ (url dirPath : List Char) (stack : List (List Char)) (vfs : Vfs),
      ¬ url.head? = some '<' → url ∉ stack → isRemoteUrl url = false →
      vfs.fexists (pathJoin dirPath url) = true → pathJoin dirPath url ∈ stack →
      readPlantUmlInclude url dirPath stack vfs =
        .error (.cycle (pathJoin dirPath url))) ∧
    preprocessPlantUML 4 "!include a.txt".toList cycVfs =
      (.error (.cycle "a.txt".toList), ⟨[], ["a.txt".toList, "b.txt".toList]⟩) :=
  ⟨rpi_cycle_raw, rpi_cycle_resolved, by decide⟩

/-- C1 witness: both cycle checks fire on concrete inputs. -/
theorem claim_c1_cycle_error_witness :
    readPlantUmlInclude "a.txt".toList ['.'] ["a.txt".toList] emptyVfs =
      .error (.cycle "a.txt".toList) ∧
    readPlantUmlInclude "b.txt".toList "d".toList
      [pathJoin "d".toList "b.txt".toList] (singleVfs "d/b.txt".toList []) =
      .error (.cycle (pathJoin "d".toList "b.txt".toList)) :=
  ⟨claim_c1_cycle_error.1 "a.txt".toList ['.'] ["a.txt".toList] emptyVfs
    (by decide) (by decide),
   claim_c1_cycle_error.2.1 "b.txt".toList "d".toList
    [pathJoin "d".toList "b.txt".toList] (singleVfs "d/b.txt".toList [])
    (by decide) (by decide) (by decide) (by decide) (by decide)⟩

/-- C2: for every well-behaved file name and plain content, including the
same resolved file twice under `!include_once` fails with the duplicate
error on the second occurrence, while including it twice under plain
`!include` succeeds both times (the include-once list ends holding the
file once in the first case and is never grown in the second). -/
theorem claim_c2_include_once (n content : List Char)
    (hn : goodName n = true) (hc : plainText content = true) :
    preprocessPlantUML 3
      ("!include_once ".toList ++ n ++ '\n' :: ("!include_once ".toList ++ n))
      (singleVfs n content) = (.error (.duplicate n), ⟨[n], []⟩) ∧
    preprocessPlantUML 3
      ("!include ".toList ++ n ++ '\n' :: ("!include ".toList ++ n))
      (singleVfs n content) = (.ok (content ++ '\n' :: content), ⟨[], []⟩) :=
  ⟨c2_run_once n content hn hc, c2_run_plain n content hn hc⟩

/-- C2 witness: concrete duplicate failure and plain double inclusion. -/
theorem claim_c2_include_once_witness :
    goodName "a.txt".toList = true ∧ plainText "hello".toList = true ∧
    (preprocessPlantUML 3
      ("!include_once ".toList ++ "a.txt".toList ++ '\n' ::
        ("!include_once ".toList ++ "a.txt".toList))
      (singleVfs "a.txt".toList "hello".toList) =
      (.error (.duplicate "a.txt".toList), ⟨["a.txt".toList], []⟩) ∧
    preprocessPlantUML 3
      ("!include ".toList ++ "a.txt".toList ++ '\n' ::
        ("!include ".toList ++ "a.txt".toList))
      (singleVfs "a.txt".toList "hello".toList) =
      (.ok ("hello".toList ++ '\n' :: "hello".toList), ⟨[], []⟩)) :=
  ⟨by decide, by decide,
   claim_c2_include_once "a.txt".toList "hello".toList (by decide) (by decide)⟩

/-- C3: a failed read of a remote reference is soft — the resolution
result is a skip (for every content source whose read fails), and
end-to-end the directive line is left untouched with no error — while a
failed read of a local reference is a hard read error that aborts the
whole expansion. -/
theorem claim_c3_remote_soft_local_hard :
    (∀ (url dirPath : List Char) (stack : List (List Char)) (vfs : Vfs),
      ¬ url.head? = some '<' → url ∉ stack → isRemoteUrl url = true →
      vfs.read url = none →
      readPlantUmlInclude url dirPath stack vfs = .ok ⟨true, [], url⟩) ∧
    (∀ (url dirPath : List Char) (stack : List (List Char)) (vfs : Vfs)
      (fp : List Char),
      ¬ url.head? = some '<' → url ∉ stack → isRemoteUrl url = false →
      fp = (if vfs.fexists (pathJoin dirPath url) then pathJoin dirPath url else url) →
      fp ∉ stack → vfs.read fp = none →
      readPlantUmlInclude url dirPath stack vfs = .error (.readLocal fp)) ∧
    preprocessPlantUML 2 "!includeurl http://h/x".toList emptyVfs =
      (.ok "!includeurl http://h/x".toList, ⟨[], []⟩) ∧
    preprocessPlantUML 2 "!include missing.txt".toList emptyVfs =
      (.error (.readLocal "missing.txt".toList), ⟨[], []⟩) :=
  ⟨rpi_remote_soft,
   fun url dirPath stack vfs fp h1 h2 h3 h4 h5 h6 =>
     rpi_local_hard url dirPath stack vfs h1 h2 h3 fp h4 h5 h6,
   by decide, by decide⟩

/-- C3 witness: the two read-failure branches on concrete inputs. -/
theorem claim_c3_remote_soft_local_hard_witness :
    readPlantUmlInclude "http://h/x".toList ['.'] [] emptyVfs =
      .ok ⟨true, [], "http://h/x".toList⟩ ∧
    readPlantUmlInclude "missing.txt".toList ['.'] [] emptyVfs =
      .error (.readLocal "missing.txt".toList) :=
  ⟨claim_c3_remote_soft_local_hard.1 "http://h/x".toList ['.'] [] emptyVfs
    (by decide) (by decide) (by decide) rfl,
   claim_c3_remote_soft_local_hard.2.1 "missing.txt".toList ['.'] [] emptyVfs
    "missing.txt".toList (by decide) (by decide) (by decide) (by decide)
    (by decide) rfl⟩

/-- C4 counterexample: when the nested branch fails (the included file
references an unreadable file), the resolved path pushed before the
recursive call is NOT popped — after the failing top-level call the
inclusion stack still holds `a.txt`, so the stack is not restored on the
failure exit path. -/
theorem claim_c4_stack_restore_cx :
    preprocessPlantUML 3 "!include a.txt".toList failVfs =
      (.error (.readLocal "missing.txt".toList), ⟨[], ["a.txt".toList]⟩) ∧
    (⟨[], ["a.txt".toList]⟩ : PState).includeStack ≠ ([] : List (List Char)) := by
  decide

/-- C4 (amended): the inclusion stack is restored on every NORMAL return
of the recursive re-expansion — a call that returns successfully leaves
the stack exactly as it found it; on a failure the error propagates
(aborting the whole top-level call) without the pop being executed. -/
theorem claim_c4_stack_restore_amended (fuel : Nat) (t dirPath : List Char)
    (st : PState) (vfs : Vfs) (res : List Char) (st' : PState)
    (h : preprocessPlantUmlIncludes fuel t dirPath st vfs = (.ok res, st')) :
    st'.includeStack = st.includeStack :=
  preprocess_stack fuel t dirPath st vfs res st' h

/-- C4 witness: a successful expansion entered with a non-empty stack
returns with that same stack. -/
theorem claim_c4_stack_restore_amended_witness :
    preprocessPlantUmlIncludes 2 "!include a.txt".toList ['.']
      ⟨[], [['z']]⟩ (singleVfs "a.txt".toList "hello".toList) =
      (.ok "hello".toList, ⟨[], [['z']]⟩) ∧
    (⟨[], [['z']]⟩ : PState).includeStack = (⟨[], [['z']]⟩ : PState).includeStack :=
  ⟨by decide,
   claim_c4_stack_restore_amended 2 "!include a.txt".toList ['.']
     ⟨[], [['z']]⟩ (singleVfs "a.txt".toList "hello".toList) "hello".toList
     ⟨[], [['z']]⟩ (by decide)⟩

theorem tryKw_kw (r2 sfx : List Char) (m : IncMatch) (h : tryKw r2 sfx = some m) :
    m.kw = "include".toList ++ sfx := by
  unfold tryKw at h
  cases h1 : stripPfx sfx r2 with
  | none => rw [h1] at h; exact absurd h (by simp)
  | some r3 =>
    rw [h1] at h
    have h' : (matchAfterKw r3).map (fun t =>
        (⟨'i' :: 'n' :: 'c' :: 'l' :: 'u' :: 'd' :: 'e' :: sfx, t.1, t.2.1, t.2.2⟩ :
          IncMatch)) = some m := h
    cases h2 : matchAfterKw r3 with
    | none => rw [h2] at h'; exact absurd h' (by simp)
    | some t =>
      have h3 : some (⟨'i' :: 'n' :: 'c' :: 'l' :: 'u' :: 'd' :: 'e' :: sfx,
          t.1, t.2.1, t.2.2⟩ : IncMatch) = some m := by
        rw [h2] at h'
        exact h'
      injection h3 with h4
      rw [← h4]
      rfl

/-- C5 counterexample: the keyword is NOT matched case-insensitively —
`!INCLUDE a.txt` is not recognized (the line is emitted unchanged and no
read happens), while the lowercase spelling of the same line expands. -/
theorem claim_c5_case_cx :
    matchInclude "!INCLUDE a.txt".toList = none ∧
    preprocessPlantUML 2 "!INCLUDE a.txt".toList
      (singleVfs "a.txt".toList "hello".toList) =
      (.ok "!INCLUDE a.txt".toList, ⟨[], []⟩) ∧
    preprocessPlantUML 2 "!include a.txt".toList
      (singleVfs "a.txt".toList "hello".toList) =
      (.ok "hello".toList, ⟨[], []⟩) := by
  decide

/-- C5 (amended): the directive matcher is case-sensitive — every line it
recognizes carries exactly one of the five lowercase keyword spellings
(the later `toLowerCase` call never observes anything else). -/
theorem claim_c5_case_amended (line : List Char) (m : IncMatch)
    (h : matchInclude line = some m) :
    m.kw ∈ ["include".toList, "include_many".toList, "include_once".toList,
      "includeurl".toList, "includesub".toList] := by
  simp only [matchInclude] at h
  split at h
  · next r heq =>
    cases hs : stripPfx "include".toList r with
    | none => rw [hs] at h; exact absurd h (by simp)
    | some r2 =>
      rw [hs] at h
      have h0 : (tryKw r2 "_many".toList <|> tryKw r2 "_once".toList <|>
          tryKw r2 "url".toList <|> tryKw r2 "sub".toList <|> tryKw r2 []) = some m := h
      clear h
      rename' h0 => h
      cases hA : tryKw r2 "_many".toList with
      | some a =>
        rw [hA] at h
        simp only [Option.some_orElse] at h
        injection h with h2
        have := tryKw_kw r2 "_many".toList m (h2 ▸ hA)
        simp [this]
      | none =>
        rw [hA, Option.none_orElse] at h
        cases hB : tryKw r2 "_once".toList with
        | some a =>
          rw [hB] at h
          simp only [Option.some_orElse] at h
          injection h with h2
          have := tryKw_kw r2 "_once".toList m (h2 ▸ hB)
          simp [this]
        | none =>
          rw [hB, Option.none_orElse] at h
          cases hC : tryKw r2 "url".toList with
          | some a =>
            rw [hC] at h
            simp only [Option.some_orElse] at h
            injection h with h2
            have := tryKw_kw r2 "url".toList m (h2 ▸ hC)
            simp [this]
          | none =>
            rw [hC, Option.none_orElse] at h
            cases hD : tryKw r2 "sub".toList with
            | some a =>
              rw [hD] at h
              simp only [Option.some_orElse] at h
              injection h with h2
              have := tryKw_kw r2 "sub".toList m (h2 ▸ hD)
              simp [this]
            | none =>
              rw [hD, Option.none_orElse] at h
              have := tryKw_kw r2 [] m h
              simp [this]
  · exact absurd h (by simp)

/-- C5 witness: a recognized concrete line carries a lowercase keyword. -/
theorem claim_c5_case_amended_witness :
    matchInclude "!include a".toList =
      some ⟨"include".toList, ['a'], [], []⟩ ∧
    (⟨"include".toList, ['a'], [], []⟩ : IncMatch).kw ∈
      ["include".toList, "include_many".toList, "include_once".toList,
        "includeurl".toList, "includesub".toList] :=
  ⟨by decide, claim_c5_case_amended "!include a".toList
    ⟨"include".toList, ['a'], [], []⟩ (by decide)⟩

/-- C6 counterexample: a document with zero include directives is NOT
always returned unchanged — a block comment is stripped, so `/'x'/`
(whose single line matches no directive) expands to the empty document. -/
theorem claim_c6_unchanged_cx :
    (∀ line ∈ splitOnNl "/'x'/".toList, matchInclude line = none) ∧
    preprocessPlantUML 1 "/'x'/".toList emptyVfs = (.ok [], ⟨[], []⟩) ∧
    ([] : List Char) ≠ "/'x'/".toList := by
  decide

/-- C6 (amended): a document with zero include directives on which the
comment-stripping passes are the identity (no block comment span and no
single-line comment match) is returned unchanged, including exact
whitespace, for every base directory, state and content source. -/
theorem claim_c6_unchanged_amended (d dirPath : List Char) (st : PState)
    (vfs : Vfs) (fuel : Nat)
    (hstrip : stripSingleLineComments (stripBlockComments d) = d)
    (hlines : ∀ line ∈ splitOnNl d, matchInclude line = none) :
    preprocessPlantUmlIncludes (fuel + 1) d dirPath st vfs = (.ok d, st) := by
  simp only [preprocessPlantUmlIncludes, hstrip,
    processLines_none _ _ _ _ _ hlines, joinNl_splitOnNl]

/-- C6 witness: a comment-free, directive-free document with internal
blank lines passes through unchanged. -/
theorem claim_c6_unchanged_amended_witness :
    stripSingleLineComments (stripBlockComments "hello\n\n  world ".toList) =
      "hello\n\n  world ".toList ∧
    (∀ line ∈ splitOnNl "hello\n\n  world ".toList, matchInclude line = none) ∧
    preprocessPlantUmlIncludes 1 "hello\n\n  world ".toList ['.'] ⟨[], []⟩ emptyVfs =
      (.ok "hello\n\n  world ".toList, ⟨[], []⟩) :=
  ⟨by decide, by decide,
   claim_c6_unchanged_amended "hello\n\n  world ".toList ['.'] ⟨[], []⟩ emptyVfs 0
     (by decide) (by decide)⟩

/-- C7 counterexample: the claim says include-sub extraction returns the
bodies of the sub-blocks carrying exactly the requested name.  The code
splices the selector into the regular-expression pattern
(`preprocess.js` line 183), so a selector containing pattern syntax is
not matched literally: the selector `a.b` — a string occurring nowhere
in the text — extracts the body of the block named `axb`, because its
`.` matches any character; the block's own name `axb` extracts the same
body. -/
theorem claim_c7_sub_cx :
    getPlantUmlTextFromSub "!startsub axb\nBODY\n!endsub".toList "a.b".toList =
      "BODY".toList ∧
    ¬ ("a.b".toList <:+: "!startsub axb\nBODY\n!endsub".toList) ∧
    getPlantUmlTextFromSub "!startsub axb\nBODY\n!endsub".toList "axb".toList =
      "BODY".toList := by
  refine ⟨by decide, by decide, by decide⟩

/-- C7 amended: for a selector free of pattern syntax characters — so
the spliced pattern reads it literally — extraction from a text
interleaving any number of sub-blocks carrying exactly that name with
marker-free fillers returns the bodies in document order, joined by a
single newline with no trailing newline; zero blocks yield the empty
string. -/
theorem claim_c7_sub_amended (name : List Char)
    (pairs : List (List Char × List Char)) (fin : List Char)
    (hn : subNameLit name = true) (hp : ∀ p ∈ pairs, subPairOk p = true)
    (hfin : '!' ∉ fin) :
    getPlantUmlTextFromSub (mkSubs name pairs fin) name =
      joinNl (pairs.map Prod.snd) :=
  getPlantUmlTextFromSub_mkSubs name pairs fin (subNameLit_ok name hn) hp hfin

/-- C7 witness: two same-named sub-blocks give the two bodies joined by
one newline; the empty interleaving gives the empty string. -/
theorem claim_c7_sub_amended_witness :
    subNameLit "AB".toList = true ∧
    (∀ p ∈ [("x\n".toList, "b1".toList), ("\ny".toList, "b2".toList)],
      subPairOk p = true) ∧
    getPlantUmlTextFromSub
      (mkSubs "AB".toList [("x\n".toList, "b1".toList), ("\ny".toList, "b2".toList)]
        "z".toList) "AB".toList =
      joinNl ([("x\n".toList, "b1".toList), ("\ny".toList, "b2".toList)].map Prod.snd) ∧
    getPlantUmlTextFromSub (mkSubs "AB".toList [] "no blocks here".toList)
      "AB".toList = joinNl (([] : List (List Char × List Char)).map Prod.snd) :=
  ⟨by decide, by decide,
   claim_c7_sub_amended "AB".toList
     [("x\n".toList, "b1".toList), ("\ny".toList, "b2".toList)] "z".toList
     (by decide) (by decide) (by decide),
   claim_c7_sub_amended "AB".toList [] "no blocks here".toList
     (by decide) (by decide) (by decide)⟩

/-- C8: positional extraction over a text interleaving top-level blocks
with marker-free fillers returns exactly the body of the zero-based k-th
block, and the empty string (not a failure) for every negative or
out-of-range index. -/
theorem claim_c8_positional (pairs : List (List Char × List Char))
    (fin : List Char) (k : Int)
    (hp : ∀ p ∈ pairs, umlPairOk p = true) (hfin : '@' ∉ fin) :
    getPlantUmlTextFromIndex (mkUmls pairs fin) k =
      (if k < 0 then [] else ((pairs.map Prod.snd).get? k.toNat).getD []) ∧
    (0 ≤ k → pairs.length ≤ k.toNat →
      getPlantUmlTextFromIndex (mkUmls pairs fin) k = []) := by
  have hb := umlBodies_mkUmls pairs fin hp hfin
  constructor
  · unfold getPlantUmlTextFromIndex
    rw [hb]
  · intro hk1 hk2
    unfold getPlantUmlTextFromIndex
    rw [if_neg (by omega), hb]
    rw [List.get?_eq_none.mpr (by simpa using hk2)]
    rfl

/-- C8 witness: index 1 of a three-block file is the second body; index 5
is out of range and yields the empty string. -/
theorem claim_c8_positional_witness :
    (∀ p ∈ [([], "a1".toList), ("f".toList, "a2".toList), ([], "a3".toList)],
      umlPairOk p = true) ∧
    getPlantUmlTextFromIndex
      (mkUmls [([], "a1".toList), ("f".toList, "a2".toList), ([], "a3".toList)]
        "g".toList) 1 =
      (if (1 : Int) < 0 then [] else
        (([([], "a1".toList), ("f".toList, "a2".toList), ([], "a3".toList)].map
          Prod.snd).get? (1 : Int).toNat).getD []) ∧
    getPlantUmlTextFromIndex
      (mkUmls [([], "a1".toList), ("f".toList, "a2".toList), ([], "a3".toList)]
        "g".toList) 5 = [] :=
  ⟨by decide,
   (claim_c8_positional [([], "a1".toList), ("f".toList, "a2".toList),
     ([], "a3".toList)] "g".toList 1 (by decide) (by decide)).1,
   (claim_c8_positional [([], "a1".toList), ("f".toList, "a2".toList),
     ([], "a3".toList)] "g".toList 5 (by decide) (by decide)).2
     (by decide) (by decide)⟩

theorem takeWhile_all (p : Char → Bool) (l : List Char) (h : ∀ x ∈ l, p x = true) :
    l.takeWhile p = l := by
  induction l with
  | nil => rfl
  | cons c rest ih =>
    simp [List.takeWhile, h c (List.mem_cons_self _ _),
      ih (fun x hx => h x (List.mem_cons_of_mem _ hx))]

/-- C10 counterexample: a line holding two apostrophes separated by a
carriage return, followed by a newline, is NOT deleted (the JS `.` does
not match CR, so `.*'.*'.*` cannot span it), refuting "every line that
contains at least two apostrophe characters and is followed by a newline
is deleted". -/
theorem claim_c10_single_line_cx :
    countApos ('\'' :: '\r' :: '\'' :: []) = 2 ∧
    stripSingleLineComments ('\'' :: '\r' :: '\'' :: '\n' :: 'X' :: []) =
      ('\'' :: '\r' :: '\'' :: '\n' :: 'X' :: []) := by
  decide

/-- C10 (amended): every line all of whose characters are matched by the
JS dot (no CR or Unicode line separators) that contains at least two
apostrophes and is followed by a newline is deleted together with that
newline, even when the apostrophes are ordinary text; and text without a
newline (a final line) is never touched by this pass. -/
theorem claim_c10_single_line_amended :
    (∀ (seg rest : List Char), (∀ c ∈ seg, dotChar c = true) →
      2 ≤ countApos seg →
      stripSingleLineComments (seg ++ '\n' :: rest) =
        stripSingleLineComments rest) ∧
    (∀ t : List Char, '\n' ∉ t → stripSingleLineComments t = t) := by
  constructor
  · intro seg rest hdot hap
    have hnl : '\n' ∉ seg := by
      intro hm
      have := hdot '\n' hm
      simp [dotChar] at this
    have hds : dotSuffix seg = seg := by
      unfold dotSuffix
      rw [takeWhile_all dotChar seg.reverse
        (fun x hx => hdot x (List.mem_reverse.mp hx)), List.reverse_reverse]
    have hseg : stripSegment seg = ([], false) := by
      simp only [stripSegment, hds, if_pos hap]
      simp
    unfold stripSingleLineComments
    rw [splitOnNl_append seg rest hnl]
    cases hr : splitOnNl rest with
    | nil => exact absurd hr (splitOnNl_ne_nil rest)
    | cons s ss =>
      show stripSegs (seg :: s :: ss) = stripSegs (s :: ss)
      simp only [stripSegs, hseg]
      simp
  · intro t hnl
    unfold stripSingleLineComments
    rw [splitOnNl_no_nl t hnl]
    rfl

/-- C10 witness: an ordinary-text line with two apostrophes and its
newline are deleted; a final line with two apostrophes is kept. -/
theorem claim_c10_single_line_amended_witness :
    (∀ c ∈ "ab'c'd".toList, dotChar c = true) ∧ 2 ≤ countApos "ab'c'd".toList ∧
    stripSingleLineComments ("ab'c'd".toList ++ '\n' :: "keep".toList) =
      stripSingleLineComments "keep".toList ∧
    ('\n' ∉ "it's Bob's".toList) ∧
    stripSingleLineComments "it's Bob's".toList = "it's Bob's".toList :=
  ⟨by decide, by decide,
   claim_c10_single_line_amended.1 "ab'c'd".toList "keep".toList
     (by decide) (by decide),
   by decide,
   claim_c10_single_line_amended.2 "it's Bob's".toList (by decide)⟩

/-- C9: the sibling Vega-Lite transform (over an abstract relaxed-JSON
parser) returns the input text unchanged whenever the parsed object has
no `data.url` field; when `data.url` is a non-empty string whose content
is readable and no `format` field is present, it returns the compact
serialization of the object with the content attached as inline `values`,
a `format.type` equal to the URL's file extension when that extension is
one of json/csv/tsv/dsv/topojson and `json` otherwise, and `url` set to
`undefined`; and a field set to `undefined` is absent from the
serialization (serializing equals serializing with the field removed). -/
theorem claim_c9_vegalite :
    (∀ (parse : List Char → Option JVal) (text : List Char) (vfs : Vfs) (obj : JVal),
      parse text = some obj →
      getField (getField obj "data".toList) "url".toList = .undefined →
      preprocessVegaLite parse text vfs = .ok text) ∧
    (∀ (parse : List Char → Option JVal) (text : List Char) (vfs : Vfs)
      (ofs dfs : JFields) (u content : List Char),
      parse text = some (.obj ofs) → lookupField ofs "data".toList = .obj dfs →
      lookupField dfs "url".toList = .str u → u ≠ [] →
      vfs.read u = some content → lookupField dfs "format".toList = .undefined →
      preprocessVegaLite parse text vfs =
        .ok (stringify (.obj (setField ofs "data".toList (.obj
          (setField (setField (setField dfs "values".toList (.str content))
            "format".toList (.obj (.cons "type".toList (.str
              (match urlExt u with
               | some e => if e ∈ knownFormats then e else "json".toList
               | none => "json".toList)) .nil)))
            "url".toList .undefined)))))) ∧
    (∀ (fs : JFields) (key : List Char),
      stringify (.obj (setField fs key .undefined)) =
        stringify (.obj (removeField fs key))) := by
  refine ⟨preprocessVegaLite_nourl, ?_, ?_⟩
  · intro parse text vfs ofs dfs u content h1 h2 h3 h4 h5 h6
    exact preprocessVegaLite_inline parse text vfs ofs dfs u content h1 h2 h3 h4 h5 h6
  · intro fs key
    simp only [stringify]
    rw [stringifyFields_set_undef]

/-- C9 witness: a parsed object without `data.url` passes through; a
local CSV reference is inlined with `format.type = csv` and `url` set to
`undefined`. -/
theorem claim_c9_vegalite_witness :
    vegaParseNoUrl "NOURL".toList = some vegaNoUrl ∧
    getField (getField vegaNoUrl "data".toList) "url".toList = .undefined ∧
    preprocessVegaLite vegaParseNoUrl "NOURL".toList emptyVfs = .ok "NOURL".toList ∧
    preprocessVegaLite vegaParse "VEGA".toList
      (singleVfs "d.csv".toList "1,2".toList) =
      .ok (stringify (.obj (setField
        (.cons "data".toList (.obj (.cons "url".toList (.str "d.csv".toList) .nil)) .nil)
        "data".toList (.obj
          (setField (setField (setField
            (.cons "url".toList (.str "d.csv".toList) .nil)
            "values".toList (.str "1,2".toList))
            "format".toList (.obj (.cons "type".toList (.str
              (match urlExt "d.csv".toList with
               | some e => if e ∈ knownFormats then e else "json".toList
               | none => "json".toList)) .nil)))
            "url".toList .undefined))))) :=
  ⟨rfl, rfl,
   claim_c9_vegalite.1 vegaParseNoUrl "NOURL".toList emptyVfs vegaNoUrl rfl rfl,
   claim_c9_vegalite.2.1 vegaParse "VEGA".toList
     (singleVfs "d.csv".toList "1,2".toList)
     (.cons "data".toList (.obj (.cons "url".toList (.str "d.csv".toList) .nil)) .nil)
     (.cons "url".toList (.str "d.csv".toList) .nil)
     "d.csv".toList "1,2".toList rfl rfl rfl (by decide) rfl rfl⟩
